import Mathlib

/-!
Shallow embedding of frugy's `frugy/types.py` (the FRU field/record codec):
`FixedField`, `StringField` and the `FruArea` record base class, together with
proofs of the testable properties stated in the specification.

Conventions of the embedding:
* Python `bytes`/`bytearray` values are `List Nat` whose elements are < 256 on
  every reachable buffer (theorems add that hypothesis where it matters).
* Python `str` values are `List Nat` of Unicode code points.
* Python exceptions are an explicit `PyErr` error value in `Except`.
* `bitstruct.pack`/`unpack` with unsigned fields and the trailing byte-swap
  character pack the declared groups MSB-first into a bit stream, emit it as
  bytes (zero-padding the tail of the last byte) and reverse the byte order of
  the packed result; `pack` fails on an out-of-range value or a wrong number
  of arguments, `unpack` fails on insufficient data.
* Operations that mutate a Python object in place return the updated object;
  `deserialize` returns the updated object even on failure, because the Python
  code mutates fields before the trailing checksum verification.
-/

namespace Frugy

/-- Python `-size % alignment` for a positive alignment: the pad byte count. -/
def numPad (size alignment : Nat) : Nat :=
  (alignment - size % alignment) % alignment

/-- `_sizeAlign`: number of padding bytes and total length after padding. -/
def sizeAlign (size alignment : Nat) : Nat × Nat :=
  (numPad size alignment, size + numPad size alignment)

/-- Big-endian byte expansion of `n` into exactly `k` bytes. -/
def natToBytesBE (k n : Nat) : List Nat :=
  match k with
  | 0 => []
  | k + 1 => natToBytesBE k (n / 256) ++ [n % 256]

/-- Big-endian byte list to natural number. -/
def bytesToNatBE (bs : List Nat) : Nat :=
  bs.foldl (fun acc b => acc * 256 + b) 0

/-- Python exceptions raised by the codec, as distinguishable error values. -/
inductive PyErr where
  | bitAlign                                  -- "Bitfield not aligned to bytes"
  | packError                                 -- bitstruct.pack failure
  | unpackError                               -- bitstruct.unpack failure
  | keyError                                  -- dict lookup failure
  | typeError                                 -- e.g. bytearray over an int/str mix
  | valueError                                -- area length not 64-bit aligned
  | checksum (expected received : List Nat)   -- padding/checksum verify error
  | codecError                                -- text codec failure
  | indexError                                -- sequence index out of range
deriving DecidableEq

/-- bitstruct: fold unsigned groups MSB-first into one natural number,
failing when a value is out of its group's range. -/
def packUAcc : List (Nat × Int) → Nat → Option Nat
  | [], acc => some acc
  | (w, v) :: rest, acc =>
    if 0 ≤ v ∧ v < (2 : Int) ^ w then packUAcc rest (acc * 2 ^ w + v.toNat)
    else none

/-- bitstruct `pack` of unsigned groups `ws` with values `vs`: MSB-first bit
stream, tail of the last byte zero-padded, emitted big-endian.  Fails on a
wrong argument count or an out-of-range value. -/
def packU (ws : List Nat) (vs : List Int) : Option (List Nat) :=
  if ws.length = vs.length then
    (packUAcc (ws.zip vs) 0).map fun n =>
      natToBytesBE ((ws.sum + 7) / 8) (n * 2 ^ numPad ws.sum 8)
  else none

/-- bitstruct `unpack` of unsigned groups from a bit stream of `bits` bits held
in the natural number `n`: peel groups off the most significant end. -/
def unpackU (ws : List Nat) (n bits : Nat) : List Nat :=
  match ws with
  | [] => []
  | w :: rest =>
    (n / 2 ^ (bits - w)) % 2 ^ w :: unpackU rest (n % 2 ^ (bits - w)) (bits - w)

/-- The value of a `FixedField`: Python keeps either a plain int or a tuple. -/
inductive FixVal where
  | scalar (n : Int)
  | tup (ns : List Int)
deriving DecidableEq

/-- `FixedField`: fixed length field for numbers and bitfields.  The format
string `u⟨w₁⟩u⟨w₂⟩…` is kept as its list of bit widths. -/
structure FixedField where
  widths : List Nat
  value : FixVal
deriving DecidableEq

/-- The argument list Python passes to `bitstruct.pack`. -/
def FixedField.valueList (f : FixedField) : List Int :=
  match f.value with
  | .scalar n => [n]
  | .tup ns => ns

/-- `FixedField.size`: bit count divided by 8, failing when misaligned. -/
def FixedField.size (f : FixedField) : Except PyErr Nat :=
  if f.widths.sum % 8 ≠ 0 then .error .bitAlign else .ok (f.widths.sum / 8)

/-- `FixedField.serialize`: `bitstruct.pack(format + '<', *values)` — MSB-first
packing followed by the whole-result byte swap of the trailing `<`. -/
def FixedField.serialize (f : FixedField) : Except PyErr (List Nat) :=
  match packU f.widths f.valueList with
  | some bs => .ok bs.reverse
  | none => .error .packError

/-- `FixedField.deserialize`: consume `size()` bytes, unpack per layout, store
a scalar for a single group and a tuple otherwise, return the remainder. -/
def FixedField.deserialize (f : FixedField) (input : List Nat) :
    FixedField × Except PyErr (List Nat) :=
  match f.size with
  | .error e => (f, .error e)
  | .ok n =>
    if input.length < n then (f, .error .unpackError)
    else
      match unpackU f.widths (bytesToNatBE (input.take n).reverse) (8 * n) with
      | [] => (f, .error .indexError)
      | [v] => ({ f with value := .scalar (Int.ofNat v) }, .ok (input.drop n))
      | vals =>
        ({ f with value := .tup (vals.map Int.ofNat) }, .ok (input.drop n))

/-- The four string encodings and their two-bit selectors. -/
inductive StringFmt where
  | BIN
  | BCD_PLUS
  | ASCII_6BIT
  | ASCII_8BIT
deriving DecidableEq

/-- Selector value of an encoding. -/
def StringFmt.val : StringFmt → Nat
  | .BIN => 0
  | .BCD_PLUS => 1
  | .ASCII_6BIT => 2
  | .ASCII_8BIT => 3

/-- `StringFmt(n)` for `n < 4` (the header selector is two bits wide). -/
def StringFmt.ofSelector : Nat → StringFmt
  | 0 => .BIN
  | 1 => .BCD_PLUS
  | 2 => .ASCII_6BIT
  | _ => .ASCII_8BIT

/-- `StringField`: variable length field for strings. -/
structure StringField where
  format : StringFmt
  value : List Nat
deriving DecidableEq

/-- The `bcdplus_lookup` table: digits, space, dash, dot. -/
def bcdplusLookup (c : Nat) : Option Nat :=
  if 0x30 ≤ c ∧ c ≤ 0x39 then some (c - 0x30)
  else if c = 0x20 then some 10
  else if c = 0x2D then some 11
  else if c = 0x2E then some 12
  else none

/-- The reverse `bcdplus_lookup_rev` table. -/
def bcdplusLookupRev (v : Nat) : Option Nat :=
  if v ≤ 9 then some (0x30 + v)
  else if v = 10 then some 0x20
  else if v = 11 then some 0x2D
  else if v = 12 then some 0x2E
  else none

/-- `StringField.size`: encoded payload size per encoding, plus header byte. -/
def StringField.size (s : StringField) : Nat :=
  (match s.format with
   | .BIN => s.value.length
   | .ASCII_8BIT => s.value.length
   | .BCD_PLUS => (sizeAlign s.value.length 2).2 / 2
   | .ASCII_6BIT => (sizeAlign s.value.length 4).2 / 4 * 3) + 1

/-- UTF-8 encoding of one code point (`str.encode`); unpaired surrogates and
out-of-range code points are not encodable. -/
def utf8EncodeChar (c : Nat) : Option (List Nat) :=
  if c < 0x80 then some [c]
  else if c < 0x800 then some [0xC0 + c / 64, 0x80 + c % 64]
  else if c < 0x10000 then
    if 0xD800 ≤ c ∧ c ≤ 0xDFFF then none
    else some [0xE0 + c / 4096, 0x80 + c / 64 % 64, 0x80 + c % 64]
  else if c < 0x110000 then
    some [0xF0 + c / 262144, 0x80 + c / 4096 % 64, 0x80 + c / 64 % 64,
          0x80 + c % 64]
  else none

/-- UTF-8 encoding of a string (`str.encode('utf-8')`). -/
def utf8Encode : List Nat → Option (List Nat)
  | [] => some []
  | c :: rest => do pure ((← utf8EncodeChar c) ++ (← utf8Encode rest))

/-- Whether a byte is a UTF-8 continuation byte. -/
def utf8Cont (b : Nat) : Prop := 0x80 ≤ b ∧ b < 0xC0

instance (b : Nat) : Decidable (utf8Cont b) := by
  unfold utf8Cont; infer_instance

/-- The strict UTF-8 decoder as a byte-at-a-time fold: `acc` holds the code
points decoded so far in reverse, `pending` an unfinished multi-byte sequence
as `(partial value, continuation bytes still expected, minimum final value)`.
The minimum rejects overlong forms; the final range check rejects surrogates
and out-of-range sequences; a leftover `pending` at the end of input is a
truncated sequence. -/
def utf8Fold : List Nat → List Nat → Option (Nat × Nat × Nat) →
    Option (List Nat)
  | [], acc, none => some acc.reverse
  | [], _, some _ => none
  | b :: rest, acc, none =>
    if b < 0x80 then utf8Fold rest (b :: acc) none
    else if b < 0xC2 then none
    else if b < 0xE0 then utf8Fold rest acc (some (b - 0xC0, 1, 0x80))
    else if b < 0xF0 then utf8Fold rest acc (some (b - 0xE0, 2, 0x800))
    else if b < 0xF5 then utf8Fold rest acc (some (b - 0xF0, 3, 0x10000))
    else none
  | b :: rest, acc, some (c, k, lo) =>
    if utf8Cont b then
      if k = 1 then
        if lo ≤ c * 64 + (b - 0x80) ∧ c * 64 + (b - 0x80) < 0x110000 ∧
            ¬(0xD800 ≤ c * 64 + (b - 0x80) ∧ c * 64 + (b - 0x80) ≤ 0xDFFF)
        then utf8Fold rest ((c * 64 + (b - 0x80)) :: acc) none
        else none
      else utf8Fold rest acc (some (c * 64 + (b - 0x80), k - 1, lo))
    else none

/-- Strict UTF-8 decoding (`bytes.decode('utf-8')`): rejects stray
continuation bytes, overlong forms, surrogates, out-of-range values and
truncated sequences. -/
def utf8Decode (bs : List Nat) : Option (List Nat) := utf8Fold bs [] none

/-- `str.upper` on one character.  The embedding models the ASCII case
mapping; every theorem below that involves `upper` restricts its inputs to
ASCII, where this is exact. -/
def pyUpperChar (c : Nat) : Nat :=
  if 0x61 ≤ c ∧ c ≤ 0x7A then c - 0x20 else c

/-- `ord(x) - 0x20` followed by the `u6` range check of `bitstruct.pack`. -/
def sub6 (c : Nat) : Option Nat :=
  if 0x20 ≤ c ∧ c < 0x60 then some (c - 0x20) else none

/-- One 4-character chunk of `ser_6bit`: subtract `0x20`, reverse the code
order, pack the four 6-bit codes MSB-first into 24 bits, and emit those three
bytes in reversed (little-endian) order. -/
def ser6bitChunk (c0 c1 c2 c3 : Nat) : Option (List Nat) := do
  let k0 ← sub6 c0
  let k1 ← sub6 c1
  let k2 ← sub6 c2
  let k3 ← sub6 c3
  let n := ((k3 * 64 + k2) * 64 + k1) * 64 + k0
  pure [n % 256, n / 256 % 256, n / 65536]

/-- `ser_6bit` on an already-uppercased string: 4-character chunks, the last
one padded with trailing spaces (the `_grouper` fill value). -/
def ser6bit : List Nat → Option (List Nat)
  | [] => some []
  | c0 :: c1 :: c2 :: c3 :: rest =>
    do pure ((← ser6bitChunk c0 c1 c2 c3) ++ (← ser6bit rest))
  | [c0] => ser6bitChunk c0 0x20 0x20 0x20
  | [c0, c1] => ser6bitChunk c0 c1 0x20 0x20
  | [c0, c1, c2] => ser6bitChunk c0 c1 c2 0x20

/-- `ser_bcd_plus`: pair up characters (odd length padded with a space), first
character of a pair in the more significant nibble. -/
def serBcdPlus : List Nat → Option (List Nat)
  | [] => some []
  | c0 :: c1 :: rest => do
    let v0 ← bcdplusLookup c0
    let v1 ← bcdplusLookup c1
    pure ((v0 * 16 + v1) :: (← serBcdPlus rest))
  | [c0] => do
    let v0 ← bcdplusLookup c0
    pure [v0 * 16 + 10]

/-- The encoded payload `ser_fn(self.value)` of `StringField.serialize`,
with the error kind each encoding raises on failure. -/
def StringField.encodePayload (s : StringField) : Except PyErr (List Nat) :=
  match s.format with
  | .BIN =>
    match utf8Encode s.value with
    | some bs => .ok bs
    | none => .error .codecError
  | .ASCII_8BIT =>
    match utf8Encode s.value with
    | some bs => .ok bs
    | none => .error .codecError
  | .BCD_PLUS =>
    match serBcdPlus s.value with
    | some bs => .ok bs
    | none => .error .keyError
  | .ASCII_6BIT =>
    match ser6bit (s.value.map pyUpperChar) with
    | some bs => .ok bs
    | none => .error .packError

/-- `StringField.serialize`: the `u2u6` header byte (failing when the encoded
length does not fit in six bits) followed by the encoded payload. -/
def StringField.serialize (s : StringField) : Except PyErr (List Nat) :=
  match s.encodePayload with
  | .error e => .error e
  | .ok payload =>
    if payload.length < 64 then
      .ok ((s.format.val * 64 + payload.length) :: payload)
    else .error .packError

/-- One 3-byte chunk of `deser_6bit`: reverse the chunk, unpack four 6-bit
codes MSB-first, emit them in reversed order with `0x20` added back. -/
def deser6bitChunk (b0 b1 b2 : Nat) : List Nat :=
  let n := b2 * 65536 + b1 * 256 + b0
  [n % 64 + 0x20, n / 64 % 64 + 0x20, n / 4096 % 64 + 0x20,
   n / 262144 % 64 + 0x20]

/-- `deser_6bit` before text decoding: 3-byte chunks.  When the payload length
is not a multiple of 3, `_grouper` pads the final chunk with the *string*
`' '`, and `bytearray` over that mixed chunk raises a `TypeError`. -/
def deser6bit : List Nat → Except PyErr (List Nat)
  | [] => .ok []
  | b0 :: b1 :: b2 :: rest => (deser6bit rest).map (deser6bitChunk b0 b1 b2 ++ ·)
  | _ => .error .typeError

/-- `deser_6bit` including the final `decode('utf-8')`. -/
def deserSixbit (payload : List Nat) : Except PyErr (List Nat) :=
  match deser6bit payload with
  | .error e => .error e
  | .ok bs =>
    match utf8Decode bs with
    | some cs => .ok cs
    | none => .error .codecError

/-- `deser_bcd_plus`: split each byte into nibbles and reverse-look both up;
a nibble above 12 is a `KeyError`. -/
def deserBcdPlus : List Nat → Except PyErr (List Nat)
  | [] => .ok []
  | v :: rest =>
    match bcdplusLookupRev (v / 16 % 16), bcdplusLookupRev (v % 16) with
    | some c0, some c1 => (deserBcdPlus rest).map fun cs => c0 :: c1 :: cs
    | _, _ => .error .keyError

/-- `deser_plain`: `bytes.decode('utf-8')`. -/
def deserPlain (payload : List Nat) : Except PyErr (List Nat) :=
  match utf8Decode payload with
  | some cs => .ok cs
  | none => .error .codecError

/-- The `deser_fn` dispatch of `StringField.deserialize`. -/
def decodePayload (fmt : StringFmt) (payload : List Nat) :
    Except PyErr (List Nat) :=
  match fmt with
  | .BIN => deserPlain payload
  | .ASCII_8BIT => deserPlain payload
  | .BCD_PLUS => deserBcdPlus payload
  | .ASCII_6BIT => deserSixbit payload

/-- `StringField.deserialize`: read the header byte, set the active format,
consume the announced payload (or whatever prefix of it the buffer holds),
decode it per the selector and store the result.  The format is updated
before decoding, so a decode failure leaves the format mutated but the value
untouched. -/
def StringField.deserialize (s : StringField) (input : List Nat) :
    StringField × Except PyErr (List Nat) :=
  match input with
  | [] => (s, .error .unpackError)
  | h :: rest =>
    match decodePayload (StringFmt.ofSelector (h / 64 % 4))
        (rest.take (h % 64)) with
    | .ok cs =>
      ({ format := StringFmt.ofSelector (h / 64 % 4), value := cs },
       .ok (rest.drop (h % 64)))
    | .error e =>
      ({ s with format := StringFmt.ofSelector (h / 64 % 4) }, .error e)

/-- A schema entry's field: one of the two field primitives. -/
inductive Field where
  | fixed (f : FixedField)
  | str (s : StringField)
deriving DecidableEq

/-- Dispatch `size` over the two field kinds. -/
def Field.size : Field → Except PyErr Nat
  | .fixed f => f.size
  | .str s => .ok s.size

/-- Dispatch `serialize` over the two field kinds. -/
def Field.serialize : Field → Except PyErr (List Nat)
  | .fixed f => f.serialize
  | .str s => s.serialize

/-- Dispatch `deserialize` over the two field kinds. -/
def Field.deserialize : Field → List Nat → Field × Except PyErr (List Nat)
  | .fixed f, input =>
    match f.deserialize input with
    | (f', r) => (.fixed f', r)
  | .str s, input =>
    match s.deserialize input with
    | (s', r) => (.str s', r)

/-- Values crossing the accessor boundary: Python int, list or str. -/
inductive PyVal where
  | int (n : Int)
  | list (ns : List Int)
  | str (cs : List Nat)
deriving DecidableEq

/-- `_get`: a field's stored value, with a tuple exposed as a list. -/
def Field.pyValue : Field → PyVal
  | .fixed f =>
    match f.value with
    | .scalar n => .int n
    | .tup ns => .list ns
  | .str s => .str s.value

/-- Python `x * 8` on an accessor result: integer multiplication, or the
sequence repetition Python performs on a list or str. -/
def pyMul8 : PyVal → PyVal
  | .int n => .int (n * 8)
  | .list ns => .list (List.replicate 8 ns).flatten
  | .str cs => .str (List.replicate 8 cs).flatten

/-- The default format version nibble. -/
def formatVersionDefault : Nat := 1

/-- `FruArea`: the implicit `u4u4` version prologue field and the ordered
schema dictionary. -/
structure FruArea where
  formatVersion : FixedField
  fields : List (String × Field)
deriving DecidableEq

/-- A `FruArea` freshly constructed from a schema (no init dict). -/
def FruArea.ofSchema (schema : List (String × Field)) : FruArea :=
  { formatVersion := { widths := [4, 4], value := .tup [0, 1] },
    fields := schema }

/-- Ordered-dict lookup in the schema dictionary. -/
def findField : List (String × Field) → String → Option Field
  | [], _ => none
  | (k', f) :: rest, k => if k' = k then some f else findField rest k

/-- `FruArea._get`, failing (`KeyError`) on a name absent from the schema. -/
def FruArea.genGet (a : FruArea) (k : String) : Option PyVal :=
  (findField a.fields k).map Field.pyValue

/-- `__getitem__`: the special accessors for `area_length` (stored unit value
times 8) and `format_version` (second entry of the prologue tuple) take
precedence over the generic accessor. -/
def FruArea.getItem (a : FruArea) (k : String) : Option PyVal :=
  if k = "area_length" then (a.genGet "area_length").map pyMul8
  else if k = "format_version" then
    match a.formatVersion.value with
    | .tup ns => (ns.get? 1).map PyVal.int
    | .scalar _ => none
  else a.genGet k

/-- Store an accessor value into a field.  Python would accept a cross-typed
assignment here and only fail later inside that field's `serialize`; the typed
embedding rejects it at the store.  No theorem below depends on the failure
point of a cross-typed store. -/
def Field.setValue : Field → PyVal → Option Field
  | .fixed f, .int n => some (.fixed { f with value := .scalar n })
  | .fixed f, .list ns => some (.fixed { f with value := .tup ns })
  | .str s, .str cs => some (.str { s with value := cs })
  | _, _ => none

/-- Replace the entry of key `k` (a dict holds one slot per key). -/
def replaceField : List (String × Field) → String → Field → List (String × Field)
  | [], _, _ => []
  | p :: rest, k, f' =>
    if p.1 = k then (k, f') :: rest else p :: replaceField rest k f'

/-- `FruArea._set` on the schema dictionary. -/
def FruArea.setField (a : FruArea) (k : String) (v : PyVal) : Option FruArea :=
  match findField a.fields k with
  | none => none
  | some f =>
    match f.setValue v with
    | none => none
    | some f' => some { a with fields := replaceField a.fields k f' }

/-- `__setitem__` with the `_set_area_length` special accessor: a value not
divisible by 8 is a `ValueError`; otherwise the value divided by 8 is stored.
Python `%` and `//` on ints are `Int.emod` and `Int.fdiv`. -/
def FruArea.setItem (a : FruArea) (k : String) (v : PyVal) :
    Except PyErr FruArea :=
  if k = "area_length" then
    match v with
    | .int n =>
      if n.emod 8 ≠ 0 then .error .valueError
      else
        match a.setField "area_length" (.int (n.fdiv 8)) with
        | some a' => .ok a'
        | none => .error .keyError
    | _ => .error .typeError
  else if k = "format_version" then
    match v with
    | .int n =>
      .ok { a with formatVersion := { a.formatVersion with value := .tup [0, n] } }
    | _ => .error .typeError
  else
    match a.setField k v with
    | some a' => .ok a'
    | none => .error .keyError

/-- `to_dict`: snapshot of every schema entry through the accessor protocol,
in schema order. -/
def FruArea.to_dict (a : FruArea) : Option (List (String × PyVal)) :=
  a.fields.mapM fun p => (a.getItem p.1).map fun v => (p.1, v)

/-- `_prologue`: the serialized format version byte. -/
def FruArea.prologue (a : FruArea) : Except PyErr (List Nat) :=
  a.formatVersion.serialize

/-- `_epilogue`: zero padding until `(len(payload) + 1)` is a multiple of 8,
then the two's-complement checksum byte `(-sum(payload)) & 0xff`. -/
def epilogue (payload : List Nat) : List Nat :=
  List.replicate (numPad (payload.length + 1) 8) 0 ++
    [(256 - payload.sum % 256) % 256]

/-- `size_payload`: field sizes plus the format version byte. -/
def FruArea.size_payload (a : FruArea) : Except PyErr Nat := do
  let sizes ← a.fields.mapM fun p => p.2.size
  pure (sizes.sum + 1)

/-- `size_total`: payload plus checksum byte, aligned up to a multiple of 8. -/
def FruArea.size_total (a : FruArea) : Except PyErr Nat := do
  let p ← a.size_payload
  pure (sizeAlign (p + 1) 8).2

/-- Concatenation of the schema fields' serialized bytes, in order. -/
def serializeFields : List (String × Field) → Except PyErr (List Nat)
  | [] => .ok []
  | (_, f) :: rest => do pure ((← f.serialize) ++ (← serializeFields rest))

/-- `FruArea.serialize`: prologue, auto-computed `area_length` when present in
the schema, field bytes, epilogue.  Returns the updated record (Python mutates
`self` in place) together with the produced bytes. -/
def FruArea.serialize (a : FruArea) : Except PyErr (FruArea × List Nat) := do
  let pro ← a.prologue
  let a1 ←
    if (findField a.fields "area_length").isSome then do
      let t ← a.size_total
      a.setItem "area_length" (.int t)
    else pure a
  let body ← serializeFields a1.fields
  let payload := pro ++ body
  pure (a1, payload ++ epilogue payload)

/-- Deserialize the schema fields in order, each consuming a prefix.  On a
failure the already-consumed fields keep their mutated state. -/
def deserializeFields : List (String × Field) → List Nat →
    List (String × Field) × Except PyErr (List Nat)
  | [], input => ([], .ok input)
  | (k, f) :: rest, input =>
    match f.deserialize input with
    | (f', .error e) => ((k, f') :: rest, .error e)
    | (f', .ok rem) =>
      match deserializeFields rest rem with
      | (rest', r) => ((k, f') :: rest', r)

/-- The tail of `FruArea.deserialize`: reconstruct the consumed payload
(`input[:-len(remainder)]`, which is empty when the remainder is empty),
recompute the expected epilogue over it and compare byte-for-byte against the
next bytes of the remainder. -/
def verifyEpilogue (a' : FruArea) (input rem2 : List Nat) :
    FruArea × Except PyErr (List Nat) :=
  let payload :=
    if rem2.length = 0 then [] else input.take (input.length - rem2.length)
  let ep := epilogue payload
  let vfy := rem2.take ep.length
  if ep = vfy then (a', .ok (rem2.drop ep.length))
  else (a', .error (.checksum ep vfy))

/-- `FruArea.deserialize`: prologue, schema fields, then the byte-for-byte
comparison of the recomputed epilogue against the next input bytes.  The
mutated record is returned even when the comparison fails, because the Python
method raises only after every field has been overwritten. -/
def FruArea.deserialize (a : FruArea) (input : List Nat) :
    FruArea × Except PyErr (List Nat) :=
  match a.formatVersion.deserialize input with
  | (fv', .error e) => ({ a with formatVersion := fv' }, .error e)
  | (fv', .ok rem1) =>
    match deserializeFields a.fields rem1 with
    | (fields', .error e) =>
      ({ formatVersion := fv', fields := fields' }, .error e)
    | (fields', .ok rem2) =>
      verifyEpilogue { formatVersion := fv', fields := fields' } input rem2

/-- Trailing-space padding to a multiple of `n` characters. -/
def padSpaces (n : Nat) (cs : List Nat) : List Nat :=
  cs ++ List.replicate (numPad cs.length n) 0x20

/-- Modelled from the spec (§4.2 table, ASCII_6BIT encode rule read
literally): subtract `0x20` from each character code, pack the four 6-bit
codes MSB-first with the *first* character most significant, split the 24-bit
stream into 3 bytes, then reverse the byte order of those 3 bytes. -/
def spec6bitChunkLiteral (c0 c1 c2 c3 : Nat) : Option (List Nat) := do
  let k0 ← sub6 c0
  let k1 ← sub6 c1
  let k2 ← sub6 c2
  let k3 ← sub6 c3
  pure (natToBytesBE 3 (((k0 * 64 + k1) * 64 + k2) * 64 + k3)).reverse

/-- The amended chunk rule: as the literal one, but the code order is
reversed before the MSB-first packing, so the *first* character occupies the
least significant six bits of the 24-bit stream. -/
def spec6bitChunkAmended (c0 c1 c2 c3 : Nat) : Option (List Nat) := do
  let k0 ← sub6 c0
  let k1 ← sub6 c1
  let k2 ← sub6 c2
  let k3 ← sub6 c3
  pure (natToBytesBE 3 (((k3 * 64 + k2) * 64 + k1) * 64 + k0)).reverse

/-- Split an exactly padded string into 4-character chunks and encode each
with the given chunk rule. -/
def spec6bitChunksWith (chunk : Nat → Nat → Nat → Nat → Option (List Nat)) :
    List Nat → Option (List Nat)
  | [] => some []
  | c0 :: c1 :: c2 :: c3 :: rest =>
    do pure ((← chunk c0 c1 c2 c3) ++ (← spec6bitChunksWith chunk rest))
  | _ => none

/-- The spec's ASCII_6BIT encode rule, literally: uppercase, pad with trailing
spaces to a multiple of 4 characters, then encode chunk by chunk. -/
def spec6bitEncodeLiteral (cs : List Nat) : Option (List Nat) :=
  spec6bitChunksWith spec6bitChunkLiteral (padSpaces 4 (cs.map pyUpperChar))

/-- The amended ASCII_6BIT encode rule (first character least significant). -/
def spec6bitEncodeAmended (cs : List Nat) : Option (List Nat) :=
  spec6bitChunksWith spec6bitChunkAmended (padSpaces 4 (cs.map pyUpperChar))

/-- Validity of a `FixedField` state: a nonempty byte-aligned layout whose
value shape matches the group count (Python stores a scalar when unpacking a
single group and a tuple otherwise). -/
def FixedField.Valid (f : FixedField) : Prop :=
  f.widths ≠ [] ∧ f.widths.sum % 8 = 0 ∧
  ((∃ n, f.value = .scalar n) ↔ f.widths.length = 1)

/-- Validity of a `StringField` value for its encoding: the plain encodings
hold valid text — any code points UTF-8 can encode, i.e. below `0x110000` and
no unpaired surrogates, with no further character-range assumption — and
ASCII_6BIT holds the printable uppercase subset (on which `upper` is the
identity); BCD_PLUS needs nothing beyond what `serialize` itself already
checks. -/
def StringField.Valid (s : StringField) : Prop :=
  match s.format with
  | .BIN => ∀ c ∈ s.value, c < 0x110000 ∧ ¬(0xD800 ≤ c ∧ c ≤ 0xDFFF)
  | .ASCII_8BIT => ∀ c ∈ s.value, c < 0x110000 ∧ ¬(0xD800 ≤ c ∧ c ≤ 0xDFFF)
  | .BCD_PLUS => True
  | .ASCII_6BIT => ∀ c ∈ s.value, 0x20 ≤ c ∧ c < 0x60

/-- Validity of a schema field. -/
def Field.Valid : Field → Prop
  | .fixed f => f.Valid
  | .str s => s.Valid

/-- Valid record state: the constructor-shaped version prologue and valid
schema field values. -/
def FruArea.Valid (a : FruArea) : Prop :=
  a.formatVersion.widths = [4, 4] ∧
  (∃ r v : Int, a.formatVersion.value = .tup [r, v]) ∧
  ∀ p ∈ a.fields, Field.Valid p.2

/-- A string value with the trailing pad spaces its own encoding introduces:
the value a decode of this field's encoding hands back. -/
def StringField.padValue (s : StringField) : List Nat :=
  match s.format with
  | .BIN => s.value
  | .ASCII_8BIT => s.value
  | .BCD_PLUS => padSpaces 2 s.value
  | .ASCII_6BIT => padSpaces 4 s.value

/-- Replace a string field's value by its padded form; fixed fields are
untouched. -/
def Field.pad : Field → Field
  | .fixed f => .fixed f
  | .str s => .str { s with value := s.padValue }

/-- The record state a byte round trip reproduces: every string field value
carries its encoding's trailing pad spaces. -/
def FruArea.padFields (a : FruArea) : FruArea :=
  { a with fields := a.fields.map fun p => (p.1, p.2.pad) }

/-- Two accessor values equal up to trailing pad spaces on a string. -/
def padValRel (v v' : PyVal) : Prop :=
  v' = v ∨ ∃ cs k, v = .str cs ∧ v' = .str (cs ++ List.replicate k 0x20)

/-- String fields of this schema entry hold ASCII text (always true of a
fixed field). -/
def Field.asciiOnly : Field → Prop
  | .fixed _ => True
  | .str s => ∀ c ∈ s.value, c < 0x80

/-- The ASCII_6BIT field holding `"IPMI"`. -/
def ipmiField : StringField :=
  { format := .ASCII_6BIT, value := [0x49, 0x50, 0x4D, 0x49] }

/-- A blank ASCII_8BIT field, the fresh-prototype state before a decode. -/
def blankField : StringField := { format := .ASCII_8BIT, value := [] }

/-- The record over the empty schema (§8 scenario 4). -/
def emptyRec : FruArea := FruArea.ofSchema []

/-- A record whose schema holds one `u8` `area_length` field, stale at 0. -/
def areaLenRec : FruArea :=
  FruArea.ofSchema [("area_length", .fixed { widths := [8], value := .scalar 0 })]

/-- A record with one ASCII_8BIT string field `x` holding `"AB"`. -/
def abRec : FruArea :=
  FruArea.ofSchema [("x", .str { format := .ASCII_8BIT, value := [0x41, 0x42] })]

/-- A buffer for `abRec`'s schema: version nibble 2, `x` decoding to `"CD"`,
valid padding, but a wrong trailing checksum byte (`0xBB` instead of the
recomputed `0xB5`). -/
def abBadBuf : List Nat := [0x02, 0xC2, 0x43, 0x44, 0, 0, 0, 0xBB]

/-- An ASCII_8BIT field holding the one-character string `"é"` (U+00E9). -/
def eacuteField : StringField := { format := .ASCII_8BIT, value := [0xE9] }

/-- A record with one ASCII_8BIT string field `x` holding the non-ASCII
string `"é"`. -/
def eacuteRec : FruArea := FruArea.ofSchema [("x", .str eacuteField)]

/-- An ASCII_8BIT field holding 64 characters `'A'`. -/
def overlongField : StringField :=
  { format := .ASCII_8BIT, value := List.replicate 64 0x41 }

/-- A BCD_PLUS field holding `"A"`, outside the supported character set. -/
def badBcdField : StringField := { format := .BCD_PLUS, value := [0x41] }

/-- The BCD_PLUS field holding `"12"` (§8 scenario 1). -/
def bcd12Field : StringField := { format := .BCD_PLUS, value := [0x31, 0x32] }

/-! ## Basic lemmas -/

deriving instance DecidableEq for Except

theorem exceptBind_ok {ε α β : Type} {x : Except ε α} {f : α → Except ε β}
    {b : β} : x >>= f = .ok b ↔ ∃ a, x = .ok a ∧ f a = .ok b := by
  cases x <;> simp [Bind.bind, Except.bind]

theorem sub6_lt {c k : Nat} (h : sub6 c = some k) : k < 64 := by
  unfold sub6 at h
  split at h
  · cases h; omega
  · cases h

theorem sub6_add {c k : Nat} (h : sub6 c = some k) : k + 0x20 = c := by
  unfold sub6 at h
  split at h
  · cases h; omega
  · cases h

/-- `ser_6bit`'s chunk encoder agrees with the amended spec rule (first
character least significant). -/
theorem ser6bitChunk_eq_amended (c0 c1 c2 c3 : Nat) :
    ser6bitChunk c0 c1 c2 c3 = spec6bitChunkAmended c0 c1 c2 c3 := by
  unfold ser6bitChunk spec6bitChunkAmended
  cases h0 : sub6 c0 <;> [rfl; skip]
  cases h1 : sub6 c1 <;> [rfl; skip]
  cases h2 : sub6 c2 <;> [rfl; skip]
  cases h3 : sub6 c3 <;> [rfl; skip]
  have b0 := sub6_lt h0
  have b1 := sub6_lt h1
  have b2 := sub6_lt h2
  have b3 := sub6_lt h3
  simp only [Option.bind_eq_bind, Option.some_bind, natToBytesBE,
    List.reverse_append, List.reverse_cons, List.reverse_nil, List.nil_append,
    List.cons_append, List.append_nil, Option.pure_def, Option.some.injEq,
    List.cons.injEq, and_true, true_and]
  omega

theorem padSpaces4_cons (c0 c1 c2 c3 : Nat) (rest : List Nat) :
    padSpaces 4 (c0 :: c1 :: c2 :: c3 :: rest) =
      c0 :: c1 :: c2 :: c3 :: padSpaces 4 rest := by
  simp only [padSpaces, numPad, List.cons_append, List.cons.injEq,
    List.length_cons, true_and]
  congr 2
  omega

/-- A single exact chunk through `spec6bitChunksWith`. -/
theorem chunksWith_single (chunk : Nat → Nat → Nat → Nat → Option (List Nat))
    (c0 c1 c2 c3 : Nat) :
    spec6bitChunksWith chunk [c0, c1, c2, c3] = chunk c0 c1 c2 c3 := by
  show (do pure ((← chunk c0 c1 c2 c3) ++
    (← spec6bitChunksWith chunk []))) = _
  cases chunk c0 c1 c2 c3 <;> simp [spec6bitChunksWith]

/-- `ser_6bit` on a string equals the amended chunk rule applied to that
string padded to a multiple of 4 characters. -/
theorem ser6bit_eq_chunksAmended (us : List Nat) :
    ser6bit us = spec6bitChunksWith spec6bitChunkAmended (padSpaces 4 us) :=
  match us with
  | [] => rfl
  | [c0] => by
    show ser6bitChunk c0 0x20 0x20 0x20 = _
    rw [show padSpaces 4 [c0] = [c0, 0x20, 0x20, 0x20] from rfl,
      chunksWith_single, ser6bitChunk_eq_amended]
  | [c0, c1] => by
    show ser6bitChunk c0 c1 0x20 0x20 = _
    rw [show padSpaces 4 [c0, c1] = [c0, c1, 0x20, 0x20] from rfl,
      chunksWith_single, ser6bitChunk_eq_amended]
  | [c0, c1, c2] => by
    show ser6bitChunk c0 c1 c2 0x20 = _
    rw [show padSpaces 4 [c0, c1, c2] = [c0, c1, c2, 0x20] from rfl,
      chunksWith_single, ser6bitChunk_eq_amended]
  | c0 :: c1 :: c2 :: c3 :: rest => by
    rw [padSpaces4_cons]
    show (do pure ((← ser6bitChunk c0 c1 c2 c3) ++ (← ser6bit rest))) =
      (do pure ((← spec6bitChunkAmended c0 c1 c2 c3) ++
        (← spec6bitChunksWith spec6bitChunkAmended (padSpaces 4 rest))))
    rw [ser6bitChunk_eq_amended, ser6bit_eq_chunksAmended rest]

/-! ## C3 -/

/-- C3: serializing the ASCII_6BIT field holding `"IPMI"` yields exactly the
bytes `83 29 DC A6` (header byte `0x83` = selector 10 and length 3, then
payload `29 DC A6`), and deserializing those 4 bytes stores the string
`"IPMI"` back into the field, whatever its previous state. -/
theorem c3_ipmi_6bit_vector :
    ipmiField.serialize = .ok [0x83, 0x29, 0xDC, 0xA6] ∧
    ∀ s : StringField,
      s.deserialize [0x83, 0x29, 0xDC, 0xA6] = (ipmiField, .ok []) :=
  ⟨by decide, fun s => rfl⟩

/-! ## C4 -/

/-- C4 counterexample: on the input `"IPMI"` the code's ASCII_6BIT encoding
produces payload `29 DC A6`, while the spec's packing rule read literally
(first character most significant) produces `69 0B A7`; the stated rule does
not describe `ser_6bit`. -/
theorem c4_counterexample :
    ser6bit (ipmiField.value.map pyUpperChar) = some [0x29, 0xDC, 0xA6] ∧
    spec6bitEncodeLiteral ipmiField.value = some [0x69, 0x0B, 0xA7] ∧
    ([0x29, 0xDC, 0xA6] : List Nat) ≠ [0x69, 0x0B, 0xA7] := by decide

/-- C4 (amended): the ASCII_6BIT encoding of every string uppercases the
input, pads with trailing spaces to a multiple of 4 characters, and per
4-character chunk subtracts `0x20`, packs the four 6-bit codes MSB-first with
the code order *reversed* (the first character in the least significant six
bits of the 24-bit stream), splits into 3 bytes and reverses their order. -/
theorem c4_sixbit_rule_amended (cs : List Nat) :
    ser6bit (cs.map pyUpperChar) = spec6bitEncodeAmended cs :=
  ser6bit_eq_chunksAmended (cs.map pyUpperChar)

/-! ## C5 -/

/-- C5 counterexample: the ASCII_8BIT field holding the single character
`"é"` has `size()` 2, yet serializes successfully to 3 bytes — UTF-8 encodes
the character to two payload bytes while `size` counts characters. -/
theorem c5_counterexample :
    eacuteField.size = 2 ∧
    eacuteField.serialize = .ok [0xC2, 0xC3, 0xA9] ∧
    ([0xC2, 0xC3, 0xA9] : List Nat).length ≠ eacuteField.size := by decide

/-! ## C9 -/

/-- C9: Record deserialization is not atomic on error.  Feeding `abRec`
(version 1, field `x` = `"AB"`) a buffer with version nibble 2, `x` decoding
to `"CD"` and a wrong checksum raises the checksum error, yet the returned
state already carries format version 2 and `x = "CD"`; the pre-call state is
not restored. -/
theorem c9_deserialize_not_atomic :
    abRec.deserialize abBadBuf =
      ({ formatVersion := { widths := [4, 4], value := .tup [0, 2] },
         fields := [("x", .str { format := .ASCII_8BIT,
                                 value := [0x43, 0x44] })] },
       .error (.checksum [0, 0, 0, 0xB5] [0, 0, 0, 0xBB])) ∧
    abRec.getItem "x" = some (.str [0x41, 0x42]) ∧
    (abRec.deserialize abBadBuf).1.getItem "x" = some (.str [0x43, 0x44]) ∧
    (abRec.deserialize abBadBuf).1.getItem "format_version" =
      some (.int 2) ∧
    abRec.getItem "format_version" = some (.int 1) := by decide

/-! ## C10 -/

/-- C10 counterexample: with a truncated buffer, the header can announce an
ASCII_6BIT payload length of 4 (not a multiple of 3) and deserialize still
succeeds — only 3 payload bytes are actually consumed and grouped. -/
theorem c10_counterexample :
    StringField.deserialize { format := .ASCII_8BIT, value := [0x41] }
        [0x84, 0, 0, 0] =
      ({ format := .ASCII_6BIT, value := [0x20, 0x20, 0x20, 0x20] },
       .ok []) ∧
    (0x84 : Nat) % 64 = 4 ∧ (4 : Nat) % 3 ≠ 0 := by decide

/-! ## Epilogue and serialize inversion lemmas -/

theorem epilogue_ne_nil (payload : List Nat) : epilogue payload ≠ [] := by
  simp [epilogue]

theorem append_epilogue_length (payload : List Nat) :
    (payload ++ epilogue payload).length % 8 = 0 := by
  simp only [epilogue, numPad, List.length_append, List.length_replicate,
    List.length_cons, List.length_nil]
  omega

theorem append_epilogue_sum (payload : List Nat) :
    (payload ++ epilogue payload).sum % 256 = 0 := by
  simp only [epilogue, List.sum_append, List.sum_replicate, smul_eq_mul,
    Nat.mul_zero, List.sum_cons, List.sum_nil]
  omega

/-- Inversion of `FruArea.setItem` on the `area_length` special accessor. -/
theorem setItem_area_ok_inv {a a1 : FruArea} {n : Int}
    (h : a.setItem "area_length" (.int n) = .ok a1) :
    n.emod 8 = 0 ∧
    ∃ ff : FixedField, findField a.fields "area_length" = some (.fixed ff) ∧
      a1 = { a with fields := (replaceField a.fields "area_length"
        (.fixed { ff with value := .scalar (n.fdiv 8) })) } := by
  unfold FruArea.setItem at h
  simp only [eq_self_iff_true, if_true] at h
  split at h
  · simp at h
  next hmod =>
    cases hsf : a.setField "area_length" (.int (n.fdiv 8)) with
    | none => rw [hsf] at h; simp at h
    | some a2 =>
      rw [hsf] at h
      simp only [Except.ok.injEq] at h
      subst h
      unfold FruArea.setField at hsf
      cases hff : findField a.fields "area_length" with
      | none => rw [hff] at hsf; simp at hsf
      | some f =>
        rw [hff] at hsf
        cases f with
        | str s => simp [Field.setValue] at hsf
        | fixed ff =>
          simp only [Field.setValue, Option.some.injEq] at hsf
          exact ⟨by omega, ff, rfl, hsf.symm⟩

/-- Inversion of a successful `FruArea.serialize`. -/
theorem serialize_ok_inv {a a1 : FruArea} {bs : List Nat}
    (h : a.serialize = .ok (a1, bs)) :
    ∃ pro body,
      a.prologue = .ok pro ∧
      serializeFields a1.fields = .ok body ∧
      bs = (pro ++ body) ++ epilogue (pro ++ body) ∧
      a1.formatVersion = a.formatVersion ∧
      ((a1 = a ∧ (findField a.fields "area_length").isSome = false) ∨
        ∃ t : Nat, a.size_total = .ok t ∧
          a.setItem "area_length" (.int (t : Int)) = .ok a1) := by
  unfold FruArea.serialize at h
  rw [exceptBind_ok] at h
  obtain ⟨pro, hpro, h⟩ := h
  by_cases hal : (findField a.fields "area_length").isSome
  · simp only [hal, if_true, exceptBind_ok, pure, Except.pure,
      Except.ok.injEq, Prod.mk.injEq] at h
    obtain ⟨t, ht, a1', hset, body, hbody, rfl, rfl⟩ := h
    obtain ⟨-, ff, -, ha1eq⟩ := setItem_area_ok_inv hset
    refine ⟨pro, body, hpro, hbody, rfl, ?_, .inr ⟨t, ht, hset⟩⟩
    rw [ha1eq]
  · simp only [hal, Bool.false_eq_true, if_false, pure_bind, exceptBind_ok,
      pure, Except.pure, Except.ok.injEq, Prod.mk.injEq] at h
    obtain ⟨y, rfl, body, hbody, rfl, rfl⟩ := h
    exact ⟨pro, body, hpro, hbody, rfl, rfl,
      .inl ⟨rfl, by simpa using hal⟩⟩

/-! ## C2 -/

/-- C2: every successfully serialized record occupies a whole number of
8-byte blocks and its bytes sum to 0 mod 256; the bytes are the payload
followed by `_epilogue`'s zero padding and single checksum byte. -/
theorem c2_alignment_checksum (a a1 : FruArea) (bs : List Nat)
    (hser : a.serialize = .ok (a1, bs)) :
    bs.length % 8 = 0 ∧ bs.sum % 256 = 0 ∧
    ∃ payload, bs = payload ++ epilogue payload := by
  obtain ⟨pro, body, -, -, rfl, -, -⟩ := serialize_ok_inv hser
  exact ⟨append_epilogue_length _, append_epilogue_sum _, _, rfl⟩

/-- C2 witness: the invariants evaluated on the minimal record's bytes. -/
theorem c2_witness :
    ([1, 0, 0, 0, 0, 0, 0, 255] : List Nat).length % 8 = 0 ∧
    ([1, 0, 0, 0, 0, 0, 0, 255] : List Nat).sum % 256 = 0 ∧
    ∃ payload, ([1, 0, 0, 0, 0, 0, 0, 255] : List Nat) =
      payload ++ epilogue payload :=
  c2_alignment_checksum emptyRec emptyRec [1, 0, 0, 0, 0, 0, 0, 255]
    (by decide)

/-! ## C8 -/

/-- `ser_bcd_plus` fails whenever some character misses the lookup table. -/
theorem serBcdPlus_none_of_bad (cs : List Nat)
    (h : ∃ c ∈ cs, bcdplusLookup c = none) : serBcdPlus cs = none :=
  match cs with
  | [] => by simp at h
  | [c0] => by
    obtain ⟨c, hc, hnone⟩ := h
    simp only [List.mem_singleton] at hc
    subst hc
    simp [serBcdPlus, hnone]
  | c0 :: c1 :: rest => by
    obtain ⟨c, hc, hnone⟩ := h
    simp only [List.mem_cons] at hc
    unfold serBcdPlus
    rcases hc with rfl | rfl | hc
    · simp [hnone]
    · cases hl0 : bcdplusLookup c0 <;> simp [hnone]
    · have hrec := serBcdPlus_none_of_bad rest ⟨c, hc, hnone⟩
      cases hl0 : bcdplusLookup c0 <;> cases hl1 : bcdplusLookup c1 <;>
        simp [hrec]

/-- C8: `StringField.serialize` fails with a distinguishable error (and
returns no bytes) whenever the encoded payload exceeds 63 bytes — the `u6`
length field of the header no longer packs — and, for BCD_PLUS, whenever the
value holds a character outside the supported set (the table lookup fails
during encoding). -/
theorem c8_serialize_failures :
    (∀ (s : StringField) (payload : List Nat),
      s.encodePayload = .ok payload → 63 < payload.length →
      s.serialize = .error .packError) ∧
    (∀ s : StringField, s.format = .BCD_PLUS →
      (∃ c ∈ s.value, bcdplusLookup c = none) →
      s.serialize = .error .keyError) := by
  constructor
  · intro s payload henc hlen
    simp only [StringField.serialize, henc]
    rw [if_neg (by omega)]
  · intro s hfmt hbad
    unfold StringField.serialize StringField.encodePayload
    rw [hfmt, serBcdPlus_none_of_bad s.value hbad]

set_option maxRecDepth 4000 in
/-- C8 witness: a 64-character ASCII_8BIT string and the BCD_PLUS value
`"A"`. -/
theorem c8_witness :
    overlongField.serialize = .error .packError ∧
    badBcdField.serialize = .error .keyError :=
  ⟨c8_serialize_failures.1 overlongField (List.replicate 64 0x41) (by decide)
      (by decide),
   c8_serialize_failures.2 badBcdField rfl ⟨0x41, by decide, by decide⟩⟩

/-! ## C6 -/

/-- C6 counterexample: after serializing `areaLenRec`, `get('area_length')`
returns 8, which already equals `size_total()`; multiplied by 8 again it is
64, not `size_total()`.  The public accessor itself scales the stored 8-byte
unit count. -/
theorem c6_counterexample :
    (areaLenRec.serialize.map fun p => p.1.getItem "area_length") =
      .ok (some (.int 8)) ∧
    (areaLenRec.serialize.map fun p => p.1.size_total) = .ok (.ok 8) ∧
    ¬((8 : Int) * 8 = 8) := by decide

theorem mapM_congr_of_map_eq {α β : Type} {g : α → Except PyErr β} :
    ∀ {l₁ l₂ : List α}, l₁.map g = l₂.map g → l₁.mapM g = l₂.mapM g
  | [], [], _ => rfl
  | [], _ :: _, h => by simp at h
  | _ :: _, [], h => by simp at h
  | a :: l₁, b :: l₂, h => by
    simp only [List.map_cons, List.cons.injEq] at h
    rw [List.mapM_cons, List.mapM_cons, h.1,
      mapM_congr_of_map_eq h.2]

/-- Replacing the `area_length` entry by a fixed field with the same widths
keeps every field size, hence `size_total`. -/
theorem map_size_replaceField (l : List (String × Field)) (ff : FixedField)
    (v : FixVal) (hfind : findField l "area_length" = some (.fixed ff)) :
    (replaceField l "area_length" (.fixed { ff with value := v })).map
        (fun p => p.2.size) =
      l.map fun p => p.2.size := by
  induction l with
  | nil => cases hfind
  | cons p rest ih =>
    unfold findField at hfind
    unfold replaceField
    split at hfind
    next heq =>
      have h2 : p.2 = .fixed ff := by injection hfind
      rw [if_pos heq, List.map_cons, List.map_cons, h2]
      rfl
    next heq =>
      rw [if_neg heq, List.map_cons, List.map_cons, ih hfind]

theorem size_total_replace_area (a : FruArea) (ff : FixedField) (v : FixVal)
    (hfind : findField a.fields "area_length" = some (.fixed ff)) :
    FruArea.size_total { a with fields := (replaceField a.fields
        "area_length" (.fixed { ff with value := v })) } =
      a.size_total := by
  unfold FruArea.size_total FruArea.size_payload
  rw [mapM_congr_of_map_eq (map_size_replaceField a.fields ff v hfind)]

/-- `findField` after `replaceField` at the replaced key. -/
theorem findField_replaceField_self (l : List (String × Field)) (k : String)
    (f' : Field) (h : (findField l k).isSome) :
    findField (replaceField l k f') k = some f' := by
  induction l with
  | nil => simp [findField] at h
  | cons p rest ih =>
    unfold replaceField
    by_cases heq : p.1 = k
    · rw [if_pos heq]
      simp [findField]
    · rw [if_neg heq]
      unfold findField
      rw [if_neg heq]
      unfold findField at h
      rw [if_neg heq] at h
      exact ih h

/-- C6 (amended): for every record whose schema includes `area_length`, after
a successful `serialize()` the value returned by `get('area_length')` itself
equals `size_total()` — the accessor already multiplies the stored 8-byte
unit count by 8. -/
theorem c6_area_length_consistency (a a1 : FruArea) (bs : List Nat)
    (hkey : (findField a.fields "area_length").isSome)
    (hser : a.serialize = .ok (a1, bs)) :
    ∃ t : Nat, a1.size_total = .ok t ∧
      a1.getItem "area_length" = some (.int (t : Int)) := by
  obtain ⟨pro, body, hpro, hbody, hbs, hfv, hbr⟩ := serialize_ok_inv hser
  rcases hbr with ⟨rfl, hfalse⟩ | ⟨t, ht, hset⟩
  · rw [hkey] at hfalse; cases hfalse
  · obtain ⟨hmod, ff, hfind, ha1⟩ := setItem_area_ok_inv hset
    refine ⟨t, ?_, ?_⟩
    · rw [ha1, size_total_replace_area a ff _ hfind, ht]
    · rw [ha1]
      unfold FruArea.getItem
      rw [if_pos rfl]
      unfold FruArea.genGet
      have hrepl := findField_replaceField_self a.fields "area_length"
        (.fixed { ff with value := .scalar ((t : Int).fdiv 8) })
        (by rw [hfind]; rfl)
      simp only [hrepl, Option.map_some', Field.pyValue, pyMul8,
        Option.some.injEq, PyVal.int.injEq]
      have h8 : (8 : Int) ∣ (t : Int) := Int.dvd_of_emod_eq_zero hmod
      rw [Int.fdiv_eq_ediv _ (by norm_num)]
      exact Int.ediv_mul_cancel h8

/-- C6 witness: the amended consistency evaluated on `areaLenRec`. -/
theorem c6_witness :
    ∃ t : Nat,
      FruArea.size_total
          { formatVersion := { widths := [4, 4], value := .tup [0, 1] },
            fields := [("area_length",
              .fixed { widths := [8], value := .scalar 1 })] } = .ok t ∧
      FruArea.getItem
          { formatVersion := { widths := [4, 4], value := .tup [0, 1] },
            fields := [("area_length",
              .fixed { widths := [8], value := .scalar 1 })] }
          "area_length" = some (.int (t : Int)) :=
  c6_area_length_consistency areaLenRec
    { formatVersion := { widths := [4, 4], value := .tup [0, 1] },
      fields := [("area_length", .fixed { widths := [8], value := .scalar 1 })] }
    [1, 1, 0, 0, 0, 0, 0, 254] (by decide) (by decide)

/-! ## C5 -/

theorem utf8Encode_ascii (cs : List Nat) (h : ∀ c ∈ cs, c < 0x80) :
    utf8Encode cs = some cs := by
  induction cs with
  | nil => rfl
  | cons c rest ih =>
    have hc : c < 0x80 := h c (by simp)
    have hrest := ih fun x hx => h x (by simp [hx])
    simp only [utf8Encode, utf8EncodeChar, if_pos hc, hrest]
    rfl

theorem serBcdPlus_length (cs : List Nat) :
    ∀ bs : List Nat, serBcdPlus cs = some bs →
      bs.length = (cs.length + numPad cs.length 2) / 2 :=
  match cs with
  | [] => by intro bs h; cases h; rfl
  | [c0] => by
    intro bs h
    unfold serBcdPlus at h
    cases hl : bcdplusLookup c0 with
    | none => rw [hl] at h; cases h
    | some v0 => rw [hl] at h; cases h; simp [numPad]
  | c0 :: c1 :: rest => by
    intro bs h
    unfold serBcdPlus at h
    cases hl0 : bcdplusLookup c0 with
    | none => rw [hl0] at h; cases h
    | some v0 =>
      rw [hl0] at h
      cases hl1 : bcdplusLookup c1 with
      | none => rw [hl1] at h; cases h
      | some v1 =>
        rw [hl1] at h
        cases hr : serBcdPlus rest with
        | none => rw [hr] at h; cases h
        | some bs' =>
          rw [hr] at h
          cases h
          have ih := serBcdPlus_length rest bs' hr
          simp only [List.length_cons, ih, numPad]
          omega

theorem ser6bitChunk_length {c0 c1 c2 c3 : Nat} {bs : List Nat}
    (h : ser6bitChunk c0 c1 c2 c3 = some bs) : bs.length = 3 := by
  unfold ser6bitChunk at h
  cases h0 : sub6 c0 with
  | none => rw [h0] at h; cases h
  | some k0 =>
  rw [h0] at h
  cases h1 : sub6 c1 with
  | none => rw [h1] at h; cases h
  | some k1 =>
  rw [h1] at h
  cases h2 : sub6 c2 with
  | none => rw [h2] at h; cases h
  | some k2 =>
  rw [h2] at h
  cases h3 : sub6 c3 with
  | none => rw [h3] at h; cases h
  | some k3 =>
  rw [h3] at h
  cases h
  rfl

theorem ser6bit_length (cs : List Nat) :
    ∀ bs : List Nat, ser6bit cs = some bs →
      bs.length = (cs.length + numPad cs.length 4) / 4 * 3 :=
  match cs with
  | [] => by intro bs h; cases h; rfl
  | [c0] => by
    intro bs h
    have := @ser6bitChunk_length c0 0x20 0x20 0x20 bs h
    simp [this, numPad]
  | [c0, c1] => by
    intro bs h
    have := @ser6bitChunk_length c0 c1 0x20 0x20 bs h
    simp [this, numPad]
  | [c0, c1, c2] => by
    intro bs h
    have := @ser6bitChunk_length c0 c1 c2 0x20 bs h
    simp [this, numPad]
  | c0 :: c1 :: c2 :: c3 :: rest => by
    intro bs h
    unfold ser6bit at h
    cases hc : ser6bitChunk c0 c1 c2 c3 with
    | none => rw [hc] at h; cases h
    | some chunk =>
      rw [hc] at h
      cases hr : ser6bit rest with
      | none => rw [hr] at h; cases h
      | some bs' =>
        rw [hr] at h
        cases h
        have ih := ser6bit_length rest bs' hr
        have hlen := ser6bitChunk_length hc
        simp only [List.length_append, List.length_cons, ih, hlen, numPad]
        omega

theorem natToBytesBE_length (k : Nat) : ∀ n, (natToBytesBE k n).length = k := by
  induction k with
  | zero => intro n; rfl
  | succ k ih => intro n; simp [natToBytesBE, ih]

theorem FixedField.serialize_ok_length {f : FixedField} {bs : List Nat}
    (h : f.serialize = .ok bs) : bs.length = (f.widths.sum + 7) / 8 := by
  unfold FixedField.serialize at h
  cases hp : packU f.widths f.valueList with
  | none => rw [hp] at h; cases h
  | some bs' =>
    rw [hp] at h
    cases h
    unfold packU at hp
    split at hp
    · simp only [Option.map_eq_some'] at hp
      obtain ⟨n, -, rfl⟩ := hp
      simp [natToBytesBE_length]
    · cases hp

/-- C5 (amended): `len(serialize(f)) == size(f)` holds for every BitField and
for every string field whose value is ASCII text, whenever both operations
succeed; pure ASCII is the regime in which `size`'s character count agrees
with the UTF-8 byte count used by `serialize`. -/
theorem c5_size_consistency_ascii (f : Field) (ha : f.asciiOnly)
    (bs : List Nat) (n : Nat) (hser : f.serialize = .ok bs)
    (hsz : f.size = .ok n) : bs.length = n := by
  cases f with
  | fixed ff =>
    have hlen := @FixedField.serialize_ok_length ff bs hser
    replace hsz : FixedField.size ff = .ok n := hsz
    unfold FixedField.size at hsz
    by_cases hmod : ff.widths.sum % 8 ≠ 0
    · rw [if_pos hmod] at hsz; cases hsz
    · rw [if_neg hmod] at hsz
      cases hsz
      rw [hlen]
      omega
  | str s =>
    replace hsz : (Except.ok s.size : Except PyErr Nat) = .ok n := hsz
    cases hsz
    replace hser : StringField.serialize s = .ok bs := hser
    unfold StringField.serialize at hser
    cases henc : s.encodePayload with
    | error e => rw [henc] at hser; cases hser
    | ok payload =>
      rw [henc] at hser
      replace hser : (if payload.length < 64
          then (Except.ok ((s.format.val * 64 + payload.length) :: payload) :
            Except PyErr (List Nat))
          else .error .packError) = .ok bs := hser
      by_cases hlt : payload.length < 64
      swap
      · rw [if_neg hlt] at hser; cases hser
      rw [if_pos hlt] at hser
      cases hser
      have hplen : payload.length = StringField.size s - 1 := by
        unfold StringField.encodePayload at henc
        unfold StringField.size sizeAlign
        cases hfmt : s.format <;> rw [hfmt] at henc
        · cases he : utf8Encode s.value with
          | none => rw [he] at henc; cases henc
          | some bs2 =>
            rw [he] at henc; cases henc
            rw [utf8Encode_ascii s.value (by simpa [Field.asciiOnly] using ha)]
              at he
            cases he
            simp
        · cases he : serBcdPlus s.value with
          | none => rw [he] at henc; cases henc
          | some bs2 =>
            rw [he] at henc; cases henc
            simp [serBcdPlus_length s.value _ he, numPad]
        · cases he : ser6bit (s.value.map pyUpperChar) with
          | none => rw [he] at henc; cases henc
          | some bs2 =>
            rw [he] at henc; cases henc
            have := ser6bit_length (s.value.map pyUpperChar) _ he
            simp only [List.length_map] at this
            simp [this, numPad]
        · cases he : utf8Encode s.value with
          | none => rw [he] at henc; cases henc
          | some bs2 =>
            rw [he] at henc; cases henc
            rw [utf8Encode_ascii s.value (by simpa [Field.asciiOnly] using ha)]
              at he
            cases he
            simp
      have hpos : 1 ≤ StringField.size s := by
        unfold StringField.size
        omega
      simp only [List.length_cons, hplen]
      omega

/-- C5 witness: the BCD_PLUS field `"12"` serializes to `41 12`, two bytes,
matching `size()`. -/
theorem c5_witness : ([0x41, 0x12] : List Nat).length = 2 :=
  c5_size_consistency_ascii (.str bcd12Field)
    (by decide : ∀ c ∈ bcd12Field.value, c < 0x80) [0x41, 0x12] 2
    (by decide) (by decide)

/-! ## C10 -/

theorem utf8Fold_ascii (bs : List Nat) :
    ∀ acc, (∀ b ∈ bs, b < 0x80) →
      utf8Fold bs acc none = some (acc.reverse ++ bs) := by
  induction bs with
  | nil => intro acc h; simp [utf8Fold]
  | cons b rest ih =>
    intro acc h
    have hb : b < 0x80 := h b (by simp)
    show (if b < 0x80 then utf8Fold rest (b :: acc) none else _) = _
    rw [if_pos hb, ih (b :: acc) fun x hx => h x (by simp [hx])]
    simp

theorem utf8Decode_ascii (bs : List Nat) (h : ∀ b ∈ bs, b < 0x80) :
    utf8Decode bs = some bs := by
  unfold utf8Decode
  rw [utf8Fold_ascii bs [] h]
  rfl

theorem deser6bit_ok_mod3 (l : List Nat) :
    l.length % 3 = 0 → ∃ out, deser6bit l = .ok out ∧ ∀ c ∈ out, c < 0x80 :=
  match l with
  | [] => fun _ => ⟨[], rfl, by simp⟩
  | [b0] => by intro h; simp at h
  | [b0, b1] => by intro h; simp at h
  | b0 :: b1 :: b2 :: rest => by
    intro h
    have hr : rest.length % 3 = 0 := by
      simp only [List.length_cons] at h; omega
    obtain ⟨out, hout, hascii⟩ := deser6bit_ok_mod3 rest hr
    refine ⟨deser6bitChunk b0 b1 b2 ++ out, ?_, ?_⟩
    · show (deser6bit rest).map _ = _
      rw [hout]; rfl
    · intro c hc
      rcases List.mem_append.1 hc with hc | hc
      · simp only [deser6bitChunk, List.mem_cons, List.not_mem_nil,
          or_false] at hc
        rcases hc with rfl | rfl | rfl | rfl <;> omega
      · exact hascii c hc

theorem deser6bit_error_mod3 (l : List Nat) :
    l.length % 3 ≠ 0 → deser6bit l = .error .typeError :=
  match l with
  | [] => fun h => absurd rfl h
  | [b0] => fun _ => rfl
  | [b0, b1] => fun _ => rfl
  | b0 :: b1 :: b2 :: rest => by
    intro h
    have hr : rest.length % 3 ≠ 0 := by
      simp only [List.length_cons] at h ⊢; omega
    show (deser6bit rest).map _ = _
    rw [deser6bit_error_mod3 rest hr]
    rfl

/-- C10 (amended): decoding a buffer whose header selects ASCII_6BIT succeeds
exactly when the *consumed* payload length — the announced 6-bit length capped
at the remaining buffer — is a multiple of 3; for any other consumed length it
fails with the generic `TypeError` raised while grouping the payload (the
string pad value meets integer bytes), leaving the stored value untouched. -/
theorem c10_sixbit_payload_grouping (s : StringField) (h : Nat)
    (rest : List Nat) (hsel : h / 64 % 4 = 2) :
    ((rest.take (h % 64)).length % 3 = 0 →
      ∃ v, s.deserialize (h :: rest) =
        ({ format := .ASCII_6BIT, value := v }, .ok (rest.drop (h % 64)))) ∧
    ((rest.take (h % 64)).length % 3 ≠ 0 →
      s.deserialize (h :: rest) =
        ({ s with format := .ASCII_6BIT }, .error .typeError)) := by
  have hfmt : StringFmt.ofSelector (h / 64 % 4) = .ASCII_6BIT := by
    rw [hsel]; rfl
  constructor
  · intro hmod
    obtain ⟨out, hout, hascii⟩ := deser6bit_ok_mod3 _ hmod
    refine ⟨out, ?_⟩
    have hdec : decodePayload (StringFmt.ofSelector (h / 64 % 4))
        (rest.take (h % 64)) = .ok out := by
      rw [hfmt]
      show deserSixbit _ = _
      unfold deserSixbit
      rw [hout]
      show (match utf8Decode out with
            | some cs => (Except.ok cs : Except PyErr (List Nat))
            | none => .error .codecError) = _
      rw [utf8Decode_ascii out hascii]
    show (match decodePayload (StringFmt.ofSelector (h / 64 % 4))
          (rest.take (h % 64)) with
        | .ok cs =>
          (({ format := StringFmt.ofSelector (h / 64 % 4), value := cs } :
              StringField),
           (Except.ok (rest.drop (h % 64)) : Except PyErr (List Nat)))
        | .error e =>
          (({ s with format := StringFmt.ofSelector (h / 64 % 4) } :
              StringField),
           .error e)) = _
    rw [hdec]
    simp [hfmt]
  · intro hmod
    have hdec : decodePayload (StringFmt.ofSelector (h / 64 % 4))
        (rest.take (h % 64)) = .error .typeError := by
      rw [hfmt]
      show deserSixbit _ = _
      unfold deserSixbit
      rw [deser6bit_error_mod3 _ hmod]
    show (match decodePayload (StringFmt.ofSelector (h / 64 % 4))
          (rest.take (h % 64)) with
        | .ok cs =>
          (({ format := StringFmt.ofSelector (h / 64 % 4), value := cs } :
              StringField),
           (Except.ok (rest.drop (h % 64)) : Except PyErr (List Nat)))
        | .error e =>
          (({ s with format := StringFmt.ofSelector (h / 64 % 4) } :
              StringField),
           .error e)) = _
    rw [hdec]
    simp [hfmt]

/-- C10 witness: both branches of the grouping rule at concrete buffers. -/
theorem c10_witness :
    (∃ v, StringField.deserialize blankField [0x83, 0, 0, 0] =
      ({ format := .ASCII_6BIT, value := v }, .ok [])) ∧
    StringField.deserialize blankField [0x82, 0, 0] =
      ({ blankField with format := .ASCII_6BIT }, .error .typeError) :=
  ⟨(c10_sixbit_payload_grouping blankField 0x83 [0, 0, 0] (by decide)).1
      (by decide),
   (c10_sixbit_payload_grouping blankField 0x82 [0, 0] (by decide)).2
      (by decide)⟩

/-! ## C7 -/

theorem fixedField_deserialize_ok_suffix {f f' : FixedField}
    {input rem : List Nat} (h : f.deserialize input = (f', .ok rem)) :
    rem.IsSuffix input := by
  unfold FixedField.deserialize at h
  split at h
  · simp at h
  · split at h
    · simp at h
    · split at h
      · simp at h
      · simp only [Prod.mk.injEq, Except.ok.injEq] at h
        obtain ⟨-, rfl⟩ := h
        exact List.drop_suffix _ input
      · simp only [Prod.mk.injEq, Except.ok.injEq] at h
        obtain ⟨-, rfl⟩ := h
        exact List.drop_suffix _ input

theorem stringField_deserialize_ok_suffix {s s' : StringField}
    {input rem : List Nat} (h : s.deserialize input = (s', .ok rem)) :
    rem.IsSuffix input := by
  unfold StringField.deserialize at h
  split at h
  · simp at h
  next hd rest =>
    split at h
    · simp only [Prod.mk.injEq, Except.ok.injEq] at h
      obtain ⟨-, rfl⟩ := h
      exact (List.drop_suffix _ rest).trans (List.suffix_cons hd rest)
    · simp at h

theorem Field.deserialize_fixed (ff : FixedField) (input : List Nat) :
    Field.deserialize (.fixed ff) input =
      ((Field.fixed (ff.deserialize input).1 : Field),
       (ff.deserialize input).2) := by
  show (match ff.deserialize input with
      | (g, r) => ((Field.fixed g : Field), r)) = _
  cases ff.deserialize input
  rfl

theorem Field.deserialize_str (s : StringField) (input : List Nat) :
    Field.deserialize (.str s) input =
      ((Field.str (s.deserialize input).1 : Field),
       (s.deserialize input).2) := by
  show (match s.deserialize input with
      | (g, r) => ((Field.str g : Field), r)) = _
  cases s.deserialize input
  rfl

theorem field_deserialize_ok_suffix {f f' : Field} {input rem : List Nat}
    (h : f.deserialize input = (f', .ok rem)) : rem.IsSuffix input := by
  cases f with
  | fixed ff =>
    rw [Field.deserialize_fixed] at h
    simp only [Prod.mk.injEq] at h
    obtain ⟨-, h2⟩ := h
    exact fixedField_deserialize_ok_suffix
      (show ff.deserialize input = ((ff.deserialize input).1, .ok rem) by
        rw [← h2])
  | str s =>
    rw [Field.deserialize_str] at h
    simp only [Prod.mk.injEq] at h
    obtain ⟨-, h2⟩ := h
    exact stringField_deserialize_ok_suffix
      (show s.deserialize input = ((s.deserialize input).1, .ok rem) by
        rw [← h2])

theorem deserializeFields_ok_suffix :
    ∀ (fs : List (String × Field)) {input rem : List Nat}
      {fs' : List (String × Field)},
      deserializeFields fs input = (fs', .ok rem) → rem.IsSuffix input
  | [], input, rem, fs', h => by
    unfold deserializeFields at h
    simp only [Prod.mk.injEq, Except.ok.injEq] at h
    obtain ⟨-, rfl⟩ := h
    exact List.suffix_refl input
  | (k, f) :: rest, input, rem, fs', h => by
    unfold deserializeFields at h
    cases hfd : f.deserialize input with
    | mk f1 r1 =>
      rw [hfd] at h
      cases r1 with
      | error e => simp at h
      | ok rem1 =>
        replace h : (match deserializeFields rest rem1 with
            | (rest', r) => ((k, f1) :: rest', r)) = (fs', .ok rem) := h
        cases hrest : deserializeFields rest rem1 with
        | mk rest' r2 =>
          rw [hrest] at h
          simp only [Prod.mk.injEq] at h
          obtain ⟨-, h2⟩ := h
          subst h2
          exact (deserializeFields_ok_suffix rest hrest).trans
            (field_deserialize_ok_suffix hfd)

theorem verifyEpilogue_ok_inv {a' a2 : FruArea} {input rem2 rest : List Nat}
    (hsuf : rem2.IsSuffix input)
    (h : verifyEpilogue a' input rem2 = (a2, .ok rest)) :
    a2 = a' ∧ ∃ payload, input = payload ++ epilogue payload ++ rest := by
  obtain ⟨pre, rfl⟩ := hsuf
  simp only [verifyEpilogue] at h
  by_cases hlen : rem2.length = 0
  · have hnil : rem2 = [] := List.length_eq_zero.mp hlen
    subst hnil
    simp only [List.length_nil, List.take_nil, if_true, eq_self_iff_true] at h
    rw [if_neg (epilogue_ne_nil [])] at h
    cases h
  · rw [if_neg hlen] at h
    have hpre : (pre ++ rem2).length - rem2.length = pre.length := by
      simp [List.length_append]
    rw [hpre, List.take_left] at h
    split at h
    next hpos =>
      simp only [Prod.mk.injEq, Except.ok.injEq] at h
      obtain ⟨rfl, rfl⟩ := h
      refine ⟨rfl, pre, ?_⟩
      rw [List.append_assoc]
      congr 1
      nth_rewrite 1 [hpos]
      exact (List.take_append_drop _ rem2).symm
    next => simp at h

set_option maxHeartbeats 4000000 in
set_option maxRecDepth 10000 in
/-- C7: `Record.deserialize` verifies the recomputed epilogue byte-for-byte
against the input and never silently accepts — a successful parse means the
input factors as `payload ++ epilogue(payload) ++ rest`; and feeding the
empty-schema record a correctly-shaped 8-byte buffer whose last byte is
anything other than `0xFF` fails with a checksum error naming both the
expected and the received bytes. -/
theorem c7_checksum_verification :
    (∀ (a : FruArea) (input : List Nat) (a' : FruArea) (rest : List Nat),
      a.deserialize input = (a', .ok rest) →
      ∃ payload, input = payload ++ epilogue payload ++ rest) ∧
    (∀ b : Nat, b < 256 → b ≠ 0xFF →
      emptyRec.deserialize [0x01, 0, 0, 0, 0, 0, 0, b] =
        (emptyRec, .error (.checksum [0, 0, 0, 0, 0, 0, 0xFF]
          [0, 0, 0, 0, 0, 0, b]))) := by
  constructor
  · intro a input a' rest h
    unfold FruArea.deserialize at h
    cases hfv : a.formatVersion.deserialize input with
    | mk fv r1 =>
      rw [hfv] at h
      cases r1 with
      | error e => simp at h
      | ok rem1 =>
        replace h : (match deserializeFields a.fields rem1 with
            | (fields', .error e) =>
              (({ formatVersion := fv, fields := fields' } : FruArea),
               (.error e : Except PyErr (List Nat)))
            | (fields', .ok rem2) =>
              verifyEpilogue { formatVersion := fv, fields := fields' }
                input rem2) = (a', .ok rest) := h
        cases hdf : deserializeFields a.fields rem1 with
        | mk fields' r2 =>
          rw [hdf] at h
          cases r2 with
          | error e => simp at h
          | ok rem2 =>
            replace h : verifyEpilogue
                { formatVersion := fv, fields := fields' } input rem2 =
                (a', .ok rest) := h
            have hsuf : rem2.IsSuffix input :=
              (deserializeFields_ok_suffix a.fields hdf).trans
                (fixedField_deserialize_ok_suffix hfv)
            exact (verifyEpilogue_ok_inv hsuf h).2
  · have hfin : ∀ bf : Fin 256, bf.val ≠ 0xFF →
        emptyRec.deserialize [0x01, 0, 0, 0, 0, 0, 0, bf.val] =
          (emptyRec, .error (.checksum [0, 0, 0, 0, 0, 0, 0xFF]
            [0, 0, 0, 0, 0, 0, bf.val])) := by decide
    intro b hb hbne
    exact hfin ⟨b, hb⟩ hbne

/-- C7 witness: a byte-exact accept and a concrete last-byte reject. -/
theorem c7_witness :
    (∃ payload, ([0x01, 0, 0, 0, 0, 0, 0, 0xFF] : List Nat) =
      payload ++ epilogue payload ++ []) ∧
    emptyRec.deserialize [0x01, 0, 0, 0, 0, 0, 0, 0] =
      (emptyRec, .error (.checksum [0, 0, 0, 0, 0, 0, 0xFF]
        [0, 0, 0, 0, 0, 0, 0])) :=
  ⟨c7_checksum_verification.1 emptyRec _ emptyRec [] (by decide),
   c7_checksum_verification.2 0 (by decide) (by decide)⟩

/-! ## C1: pack/unpack arithmetic -/

theorem toNat_lt_pow {v : Int} {w : Nat}
    (hv : 0 ≤ v ∧ v < (2 : Int) ^ w) : v.toNat < 2 ^ w := by
  have h2 : ((2 ^ w : Nat) : Int) = (2 : Int) ^ w := by push_cast; ring
  have := hv.2
  rw [← h2] at this
  exact (Int.toNat_lt hv.1).mpr this

theorem packUAcc_shift (pairs : List (Nat × Int)) :
    ∀ acc, packUAcc pairs acc =
      (packUAcc pairs 0).map
        (fun m => acc * 2 ^ (pairs.map Prod.fst).sum + m) := by
  induction pairs with
  | nil =>
    intro acc
    simp [packUAcc]
  | cons p rest ih =>
    obtain ⟨w, v⟩ := p
    intro acc
    by_cases hv : 0 ≤ v ∧ v < (2 : Int) ^ w
    · simp only [packUAcc]
      rw [if_pos hv, if_pos hv]
      rw [ih (acc * 2 ^ w + v.toNat), ih (0 * 2 ^ w + v.toNat)]
      cases packUAcc rest 0 with
      | none => rfl
      | some m =>
        simp only [Option.map_some', Option.some.injEq, List.map_cons,
          List.sum_cons, pow_add]
        ring
    · simp only [packUAcc]
      rw [if_neg hv, if_neg hv]
      rfl

theorem packUAcc_lt : ∀ (pairs : List (Nat × Int)) (m : Nat),
    packUAcc pairs 0 = some m → m < 2 ^ (pairs.map Prod.fst).sum := by
  intro pairs
  induction pairs with
  | nil =>
    intro m h
    cases h
    simp
  | cons p rest ih =>
    obtain ⟨w, v⟩ := p
    intro m h
    simp only [packUAcc] at h
    split at h
    case isFalse => cases h
    case isTrue hv =>
      rw [packUAcc_shift rest (0 * 2 ^ w + v.toNat)] at h
      rcases Option.map_eq_some'.1 h with ⟨m', hm', hsum⟩
      have hlt' := ih m' hm'
      have hvlt := toNat_lt_pow hv
      rw [Nat.zero_mul, Nat.zero_add] at hsum
      have h1 : v.toNat * 2 ^ (rest.map Prod.fst).sum + m' <
          (v.toNat + 1) * 2 ^ (rest.map Prod.fst).sum := by
        rw [Nat.succ_mul]
        omega
      have h2 : (v.toNat + 1) * 2 ^ (rest.map Prod.fst).sum ≤
          2 ^ w * 2 ^ (rest.map Prod.fst).sum :=
        Nat.mul_le_mul_right _ hvlt
      simp only [List.map_cons, List.sum_cons, pow_add]
      omega

theorem packUAcc_nonneg : ∀ (ws : List Nat) (vs : List Int) (acc r : Nat),
    packUAcc (ws.zip vs) acc = some r → ws.length = vs.length →
    ∀ v ∈ vs, 0 ≤ v := by
  intro ws
  induction ws with
  | nil =>
    intro vs acc r h hlen v hv
    cases vs with
    | nil => simp at hv
    | cons => simp at hlen
  | cons w ws' ih =>
    intro vs acc r h hlen v hv
    cases vs with
    | nil => simp at hlen
    | cons v0 vs' =>
      simp only [List.zip_cons_cons, packUAcc] at h
      split at h
      case isFalse => cases h
      case isTrue hcond =>
        rcases List.mem_cons.1 hv with rfl | hv'
        · exact hcond.1
        · exact ih vs' _ _ h (by simpa using hlen) v hv'

theorem unpackU_packUAcc : ∀ (ws : List Nat) (vs : List Int) (n : Nat),
    ws.length = vs.length → packUAcc (ws.zip vs) 0 = some n →
    unpackU ws n ws.sum = vs.map Int.toNat := by
  intro ws
  induction ws with
  | nil =>
    intro vs n hlen h
    cases vs with
    | nil => rfl
    | cons => simp at hlen
  | cons w ws' ih =>
    intro vs n hlen h
    cases vs with
    | nil => simp at hlen
    | cons v vs' =>
      have hlen' : ws'.length = vs'.length := by simpa using hlen
      simp only [List.zip_cons_cons, packUAcc] at h
      split at h
      case isFalse => cases h
      case isTrue hv =>
        replace h : packUAcc (ws'.zip vs') (0 * 2 ^ w + v.toNat) = some n := h
        rw [packUAcc_shift (ws'.zip vs') (0 * 2 ^ w + v.toNat)] at h
        rcases Option.map_eq_some'.1 h with ⟨m, hm, hsum⟩
        rw [Nat.zero_mul, Nat.zero_add] at hsum
        have hzipfst : ((ws'.zip vs').map Prod.fst).sum = ws'.sum := by
          rw [List.map_fst_zip _ _ (le_of_eq hlen')]
        rw [hzipfst] at hsum
        have hmlt : m < 2 ^ ws'.sum := by
          have := packUAcc_lt _ _ hm
          rwa [hzipfst] at this
        have hvlt := toNat_lt_pow hv
        subst hsum
        simp only [unpackU, List.sum_cons, List.map_cons, List.cons.injEq]
        have hsub : w + ws'.sum - w = ws'.sum := by omega
        rw [hsub]
        constructor
        · rw [Nat.mul_comm, Nat.mul_add_div (Nat.pos_pow_of_pos _ (by omega)),
            Nat.div_eq_of_lt hmlt, Nat.add_zero, Nat.mod_eq_of_lt hvlt]
        · have hmod : (v.toNat * 2 ^ ws'.sum + m) % 2 ^ ws'.sum = m := by
            rw [Nat.mul_comm, Nat.mul_add_mod, Nat.mod_eq_of_lt hmlt]
          rw [hmod]
          exact ih vs' m hlen' hm

theorem bytesToNatBE_natToBytesBE : ∀ (k n : Nat), n < 2 ^ (8 * k) →
    bytesToNatBE (natToBytesBE k n) = n := by
  intro k
  induction k with
  | zero =>
    intro n h
    simp only [Nat.mul_zero, pow_zero, Nat.lt_one_iff] at h
    subst h
    rfl
  | succ k ih =>
    intro n h
    show bytesToNatBE (natToBytesBE k (n / 256) ++ [n % 256]) = n
    unfold bytesToNatBE
    rw [List.foldl_append]
    show (bytesToNatBE (natToBytesBE k (n / 256))) * 256 + n % 256 = n
    have h2 : n < 2 ^ (8 * k) * 256 := by
      have he : 8 * (k + 1) = 8 * k + 8 := by ring
      rw [he, pow_add] at h
      simpa using h
    rw [ih (n / 256) ((Nat.div_lt_iff_lt_mul (by norm_num)).2 h2)]
    omega

theorem FixedField.serialize_ok_args {f : FixedField} {bs : List Nat}
    (h : f.serialize = .ok bs) : f.widths.length = f.valueList.length := by
  unfold FixedField.serialize at h
  cases hp : packU f.widths f.valueList with
  | none => rw [hp] at h; cases h
  | some bs0 =>
    unfold packU at hp
    split at hp
    next hl => exact hl
    next => cases hp

theorem map_toNat_ofNat : ∀ (l : List Int), (∀ x ∈ l, 0 ≤ x) →
    (l.map Int.toNat).map Int.ofNat = l
  | [], _ => rfl
  | x :: xs, hl => by
    simp only [List.map_cons, List.cons.injEq]
    exact ⟨by simpa using Int.toNat_of_nonneg (hl x (by simp)),
      map_toNat_ofNat xs fun y hy => hl y (by simp [hy])⟩

/-- Round trip of a valid fixed field: deserializing its own serialization
restores the field exactly and returns the rest of the buffer. -/
theorem fixedField_roundtrip (f : FixedField) (hval : f.Valid)
    (bs rest : List Nat) (hser : f.serialize = .ok bs) :
    f.deserialize (bs ++ rest) = (f, .ok rest) := by
  obtain ⟨hne, hmod8, hshape⟩ := hval
  have hargs := FixedField.serialize_ok_args hser
  unfold FixedField.serialize at hser
  cases hp : packU f.widths f.valueList with
  | none => rw [hp] at hser; cases hser
  | some bs0 =>
    rw [hp] at hser
    cases hser
    unfold packU at hp
    rw [if_pos hargs] at hp
    rcases Option.map_eq_some'.1 hp with ⟨m, hm, hbs0⟩
    have hpad : numPad f.widths.sum 8 = 0 := by
      unfold numPad
      omega
    rw [hpad, pow_zero, Nat.mul_one] at hbs0
    have hsum8 : (f.widths.sum + 7) / 8 = f.widths.sum / 8 := by omega
    rw [hsum8] at hbs0
    subst hbs0
    have hzipfst : ((f.widths.zip f.valueList).map Prod.fst).sum =
        f.widths.sum := by
      rw [List.map_fst_zip _ _ (le_of_eq hargs)]
    have hmlt : m < 2 ^ f.widths.sum := by
      have := packUAcc_lt _ _ hm
      rwa [hzipfst] at this
    have hnn : ∀ v ∈ f.valueList, 0 ≤ v := packUAcc_nonneg _ _ _ _ hm hargs
    have hunp := unpackU_packUAcc f.widths f.valueList m hargs hm
    have h8n : 8 * (f.widths.sum / 8) = f.widths.sum :=
      Nat.mul_div_cancel' (Nat.dvd_of_mod_eq_zero hmod8)
    have hsize : f.size = .ok (f.widths.sum / 8) := by
      unfold FixedField.size
      rw [if_neg (by omega)]
    have hlenbs : (natToBytesBE (f.widths.sum / 8) m).reverse.length =
        f.widths.sum / 8 := by
      rw [List.length_reverse, natToBytesBE_length]
    have hround : bytesToNatBE (natToBytesBE (f.widths.sum / 8) m) = m := by
      apply bytesToNatBE_natToBytesBE
      rwa [h8n]
    simp only [FixedField.deserialize, hsize]
    rw [if_neg (by simp [hlenbs])]
    rw [List.take_left' hlenbs, List.drop_left' hlenbs,
      List.reverse_reverse, hround, h8n, hunp]
    cases hv : f.value with
    | scalar v0 =>
      have hvl : f.valueList = [v0] := by
        unfold FixedField.valueList
        rw [hv]
      rw [hvl]
      simp only [List.map_cons, List.map_nil]
      have hvnn : 0 ≤ v0 := hnn v0 (by rw [hvl]; simp)
      have : Int.ofNat v0.toNat = v0 := by
        simpa using Int.toNat_of_nonneg hvnn
      simp only [this, Prod.mk.injEq]
      exact ⟨by rw [← hv], trivial⟩
    | tup ns =>
      have hvl : f.valueList = ns := by
        unfold FixedField.valueList
        rw [hv]
      have hlen1 : f.widths.length ≠ 1 := by
        intro h1
        rcases hshape.mpr h1 with ⟨n0, hn0⟩
        rw [hv] at hn0
        cases hn0
      have hns2 : 2 ≤ ns.length := by
        have h0 : f.widths.length ≠ 0 := by
          intro h0
          exact hne (List.length_eq_zero.mp h0)
        rw [hvl] at hargs
        omega
      rw [hvl]
      cases ns with
      | nil => simp at hns2
      | cons n0 ns' =>
        cases ns' with
        | nil => simp at hns2
        | cons n1 ns'' =>
          have hnn' : ∀ x ∈ n0 :: n1 :: ns'', 0 ≤ x := by
            rw [← hvl]
            exact hnn
          have h0 : Int.ofNat n0.toNat = n0 := by
            simpa using Int.toNat_of_nonneg (hnn' n0 (by simp))
          have h1 : Int.ofNat n1.toNat = n1 := by
            simpa using Int.toNat_of_nonneg (hnn' n1 (by simp))
          have h2 : (ns''.map Int.toNat).map Int.ofNat = ns'' :=
            map_toNat_ofNat ns'' fun y hy => hnn' y (by simp [hy])
          simp only [List.map_cons, Prod.mk.injEq, h0, h1, h2]
          exact ⟨by rw [← hv], trivial⟩

/-! ## C1: string codec round trips -/

theorem bcdplusLookup_le {c v : Nat} (h : bcdplusLookup c = some v) :
    v ≤ 12 := by
  unfold bcdplusLookup at h
  split at h
  · cases h; omega
  · split at h
    · cases h; omega
    · split at h
      · cases h; omega
      · split at h
        · cases h; omega
        · cases h

theorem bcdplusLookupRev_lookup {c v : Nat} (h : bcdplusLookup c = some v) :
    bcdplusLookupRev v = some c := by
  unfold bcdplusLookup at h
  unfold bcdplusLookupRev
  split at h
  next h1 =>
    cases h
    rw [if_pos (by omega)]
    exact congrArg some (by omega)
  next =>
    split at h
    next h2 =>
      cases h
      subst h2
      decide
    next =>
      split at h
      next h3 =>
        cases h
        subst h3
        decide
      next =>
        split at h
        next h4 =>
          cases h
          subst h4
          decide
        next => cases h

theorem padSpaces2_cons (c0 c1 : Nat) (rest : List Nat) :
    padSpaces 2 (c0 :: c1 :: rest) = c0 :: c1 :: padSpaces 2 rest := by
  simp only [padSpaces, numPad, List.cons_append, List.cons.injEq,
    List.length_cons, true_and]
  congr 2
  omega

theorem deserBcdPlus_serBcdPlus : ∀ (cs bs : List Nat),
    serBcdPlus cs = some bs → deserBcdPlus bs = .ok (padSpaces 2 cs)
  | [], bs, h => by
    cases h
    rfl
  | [c0], bs, h => by
    simp only [serBcdPlus] at h
    cases hl : bcdplusLookup c0 with
    | none => rw [hl] at h; simp at h
    | some v0 =>
      rw [hl] at h
      simp only [Option.bind_eq_bind, Option.some_bind, Option.pure_def,
        Option.some.injEq] at h
      subst h
      have hv := bcdplusLookup_le hl
      have e1 : (v0 * 16 + 10) / 16 % 16 = v0 := by omega
      have e2 : (v0 * 16 + 10) % 16 = 10 := by omega
      simp only [deserBcdPlus, e1, e2, bcdplusLookupRev_lookup hl]
      rfl
  | c0 :: c1 :: rest, bs, h => by
    simp only [serBcdPlus] at h
    cases hl0 : bcdplusLookup c0 with
    | none => rw [hl0] at h; simp at h
    | some v0 =>
      rw [hl0] at h
      cases hl1 : bcdplusLookup c1 with
      | none => rw [hl1] at h; simp at h
      | some v1 =>
        rw [hl1] at h
        cases hr : serBcdPlus rest with
        | none => rw [hr] at h; simp at h
        | some bs' =>
          rw [hr] at h
          simp only [Option.bind_eq_bind, Option.some_bind, Option.pure_def,
            Option.some.injEq] at h
          subst h
          have hv0 := bcdplusLookup_le hl0
          have hv1 := bcdplusLookup_le hl1
          have e1 : (v0 * 16 + v1) / 16 % 16 = v0 := by omega
          have e2 : (v0 * 16 + v1) % 16 = v1 := by omega
          simp only [deserBcdPlus, e1, e2, bcdplusLookupRev_lookup hl0,
            bcdplusLookupRev_lookup hl1]
          rw [deserBcdPlus_serBcdPlus rest bs' hr, padSpaces2_cons]
          rfl

theorem deser6bitChunk_ser {c0 c1 c2 c3 k0 k1 k2 k3 : Nat}
    (h0 : sub6 c0 = some k0) (h1 : sub6 c1 = some k1)
    (h2 : sub6 c2 = some k2) (h3 : sub6 c3 = some k3) :
    deser6bitChunk ((((k3 * 64 + k2) * 64 + k1) * 64 + k0) % 256)
      ((((k3 * 64 + k2) * 64 + k1) * 64 + k0) / 256 % 256)
      ((((k3 * 64 + k2) * 64 + k1) * 64 + k0) / 65536) = [c0, c1, c2, c3] := by
  have b0 := sub6_lt h0
  have b1 := sub6_lt h1
  have b2 := sub6_lt h2
  have b3 := sub6_lt h3
  have a0 := sub6_add h0
  have a1 := sub6_add h1
  have a2 := sub6_add h2
  have a3 := sub6_add h3
  simp only [deser6bitChunk, List.cons.injEq, and_true]
  omega

theorem ser6bitChunk_inv {c0 c1 c2 c3 : Nat} {bs : List Nat}
    (h : ser6bitChunk c0 c1 c2 c3 = some bs) :
    ∃ k0 k1 k2 k3, sub6 c0 = some k0 ∧ sub6 c1 = some k1 ∧
      sub6 c2 = some k2 ∧ sub6 c3 = some k3 ∧
      bs = [(((k3 * 64 + k2) * 64 + k1) * 64 + k0) % 256,
            (((k3 * 64 + k2) * 64 + k1) * 64 + k0) / 256 % 256,
            (((k3 * 64 + k2) * 64 + k1) * 64 + k0) / 65536] := by
  unfold ser6bitChunk at h
  cases h0 : sub6 c0 with
  | none => rw [h0] at h; simp at h
  | some k0 =>
    rw [h0] at h
    cases h1 : sub6 c1 with
    | none => rw [h1] at h; simp at h
    | some k1 =>
      rw [h1] at h
      cases h2 : sub6 c2 with
      | none => rw [h2] at h; simp at h
      | some k2 =>
        rw [h2] at h
        cases h3 : sub6 c3 with
        | none => rw [h3] at h; simp at h
        | some k3 =>
          rw [h3] at h
          simp only [Option.bind_eq_bind, Option.some_bind, Option.pure_def,
            Option.some.injEq] at h
          exact ⟨k0, k1, k2, k3, rfl, rfl, rfl, rfl, h.symm⟩

theorem deser6bit_ser6bit : ∀ (cs bs : List Nat),
    ser6bit cs = some bs → deser6bit bs = .ok (padSpaces 4 cs)
  | [], bs, h => by
    cases h
    rfl
  | [c0], bs, h => by
    replace h : ser6bitChunk c0 0x20 0x20 0x20 = some bs := h
    obtain ⟨k0, k1, k2, k3, h0, h1, h2, h3, rfl⟩ := ser6bitChunk_inv h
    simp only [deser6bit]
    rw [deser6bitChunk_ser h0 h1 h2 h3]
    rfl
  | [c0, c1], bs, h => by
    replace h : ser6bitChunk c0 c1 0x20 0x20 = some bs := h
    obtain ⟨k0, k1, k2, k3, h0, h1, h2, h3, rfl⟩ := ser6bitChunk_inv h
    simp only [deser6bit]
    rw [deser6bitChunk_ser h0 h1 h2 h3]
    rfl
  | [c0, c1, c2], bs, h => by
    replace h : ser6bitChunk c0 c1 c2 0x20 = some bs := h
    obtain ⟨k0, k1, k2, k3, h0, h1, h2, h3, rfl⟩ := ser6bitChunk_inv h
    simp only [deser6bit]
    rw [deser6bitChunk_ser h0 h1 h2 h3]
    rfl
  | c0 :: c1 :: c2 :: c3 :: rest, bs, h => by
    replace h : (do pure ((← ser6bitChunk c0 c1 c2 c3) ++ (← ser6bit rest)))
        = some bs := h
    cases hc : ser6bitChunk c0 c1 c2 c3 with
    | none => rw [hc] at h; simp at h
    | some ch =>
      rw [hc] at h
      cases hr : ser6bit rest with
      | none => rw [hr] at h; simp at h
      | some bs' =>
        rw [hr] at h
        simp only [Option.bind_eq_bind, Option.some_bind, Option.pure_def,
          Option.some.injEq] at h
        subst h
        obtain ⟨k0, k1, k2, k3, h0, h1, h2, h3, rfl⟩ := ser6bitChunk_inv hc
        rw [padSpaces4_cons]
        simp only [List.append_eq, List.cons_append, List.nil_append,
          deser6bit]
        rw [deser6bit_ser6bit rest bs' hr, deser6bitChunk_ser h0 h1 h2 h3]
        rfl

theorem map_pyUpperChar_id : ∀ (cs : List Nat), (∀ c ∈ cs, c < 0x61) →
    cs.map pyUpperChar = cs
  | [], _ => rfl
  | c :: rest, h => by
    simp only [List.map_cons, List.cons.injEq]
    refine ⟨?_, map_pyUpperChar_id rest fun y hy =>
      h y (List.mem_cons_of_mem c hy)⟩
    unfold pyUpperChar
    rw [if_neg (by have := h c (by simp); omega)]

theorem padSpaces_ascii {n : Nat} {cs : List Nat} (h : ∀ c ∈ cs, c < 0x80) :
    ∀ c ∈ padSpaces n cs, c < 0x80 := by
  intro c hc
  simp only [padSpaces] at hc
  rcases List.mem_append.1 hc with hc | hc
  · exact h c hc
  · rw [List.eq_of_mem_replicate hc]
    omega

theorem utf8Fold_step_ascii {b : Nat} (hb : b < 0x80) (rest acc : List Nat) :
    utf8Fold (b :: rest) acc none = utf8Fold rest (b :: acc) none := by
  show (if b < 0x80 then utf8Fold rest (b :: acc) none else _) = _
  rw [if_pos hb]

theorem utf8Fold_step_start2 {b : Nat} (hb1 : 0xC2 ≤ b) (hb2 : b < 0xE0)
    (rest acc : List Nat) :
    utf8Fold (b :: rest) acc none =
      utf8Fold rest acc (some (b - 0xC0, 1, 0x80)) := by
  show (if b < 0x80 then _
    else if b < 0xC2 then none
    else if b < 0xE0 then utf8Fold rest acc (some (b - 0xC0, 1, 0x80))
    else _) = _
  have h0 : ¬(b < 0x80) := by omega
  have h1 : ¬(b < 0xC2) := by omega
  rw [if_neg h0, if_neg h1, if_pos hb2]

theorem utf8Fold_step_start3 {b : Nat} (hb1 : 0xE0 ≤ b) (hb2 : b < 0xF0)
    (rest acc : List Nat) :
    utf8Fold (b :: rest) acc none =
      utf8Fold rest acc (some (b - 0xE0, 2, 0x800)) := by
  show (if b < 0x80 then _
    else if b < 0xC2 then none
    else if b < 0xE0 then _
    else if b < 0xF0 then utf8Fold rest acc (some (b - 0xE0, 2, 0x800))
    else _) = _
  have h0 : ¬(b < 0x80) := by omega
  have h1 : ¬(b < 0xC2) := by omega
  have h2 : ¬(b < 0xE0) := by omega
  rw [if_neg h0, if_neg h1, if_neg h2, if_pos hb2]

theorem utf8Fold_step_start4 {b : Nat} (hb1 : 0xF0 ≤ b) (hb2 : b < 0xF5)
    (rest acc : List Nat) :
    utf8Fold (b :: rest) acc none =
      utf8Fold rest acc (some (b - 0xF0, 3, 0x10000)) := by
  show (if b < 0x80 then _
    else if b < 0xC2 then none
    else if b < 0xE0 then _
    else if b < 0xF0 then _
    else if b < 0xF5 then utf8Fold rest acc (some (b - 0xF0, 3, 0x10000))
    else none) = _
  have h0 : ¬(b < 0x80) := by omega
  have h1 : ¬(b < 0xC2) := by omega
  have h2 : ¬(b < 0xE0) := by omega
  have h3 : ¬(b < 0xF0) := by omega
  rw [if_neg h0, if_neg h1, if_neg h2, if_neg h3, if_pos hb2]

theorem utf8Fold_step_cont {b c k lo : Nat} (hcont : utf8Cont b)
    (hk : ¬(k = 1)) (rest acc : List Nat) :
    utf8Fold (b :: rest) acc (some (c, k, lo)) =
      utf8Fold rest acc (some (c * 64 + (b - 0x80), k - 1, lo)) := by
  show (if utf8Cont b then
      if k = 1 then _
      else utf8Fold rest acc (some (c * 64 + (b - 0x80), k - 1, lo))
    else none) = _
  rw [if_pos hcont, if_neg hk]

theorem utf8Fold_step_contk1 {b c lo : Nat} (hcont : utf8Cont b)
    (hcond : lo ≤ c * 64 + (b - 0x80) ∧ c * 64 + (b - 0x80) < 0x110000 ∧
      ¬(0xD800 ≤ c * 64 + (b - 0x80) ∧ c * 64 + (b - 0x80) ≤ 0xDFFF))
    (rest acc : List Nat) :
    utf8Fold (b :: rest) acc (some (c, 1, lo)) =
      utf8Fold rest ((c * 64 + (b - 0x80)) :: acc) none := by
  show (if utf8Cont b then
      if 1 = 1 then
        if lo ≤ c * 64 + (b - 0x80) ∧ c * 64 + (b - 0x80) < 0x110000 ∧
            ¬(0xD800 ≤ c * 64 + (b - 0x80) ∧ c * 64 + (b - 0x80) ≤ 0xDFFF)
        then utf8Fold rest ((c * 64 + (b - 0x80)) :: acc) none
        else none
      else _
    else none) = _
  rw [if_pos hcont, if_pos rfl, if_pos hcond]

/-- Feeding one character's UTF-8 encoding to the decoder state machine in
the clean state decodes exactly that character. -/
theorem utf8Fold_encodeChar {c : Nat} {eb : List Nat}
    (h : utf8EncodeChar c = some eb) (rest acc : List Nat) :
    utf8Fold (eb ++ rest) acc none = utf8Fold rest (c :: acc) none := by
  unfold utf8EncodeChar at h
  by_cases h1 : c < 0x80
  · rw [if_pos h1] at h
    injection h with h
    subst h
    rw [List.cons_append, List.nil_append, utf8Fold_step_ascii h1]
  · rw [if_neg h1] at h
    by_cases h2 : c < 0x800
    · rw [if_pos h2] at h
      injection h with h
      subst h
      simp only [List.cons_append, List.nil_append]
      rw [utf8Fold_step_start2 (show (0xC2 : Nat) ≤ 0xC0 + c / 64 by omega)
        (show 0xC0 + c / 64 < 0xE0 by omega)]
      have hcont : utf8Cont (0x80 + c % 64) := ⟨by omega, by omega⟩
      have hcond : (0x80 : Nat) ≤
          (0xC0 + c / 64 - 0xC0) * 64 + (0x80 + c % 64 - 0x80) ∧
          (0xC0 + c / 64 - 0xC0) * 64 + (0x80 + c % 64 - 0x80) < 0x110000 ∧
          ¬(0xD800 ≤ (0xC0 + c / 64 - 0xC0) * 64 + (0x80 + c % 64 - 0x80) ∧
            (0xC0 + c / 64 - 0xC0) * 64 + (0x80 + c % 64 - 0x80) ≤ 0xDFFF) :=
        by omega
      rw [utf8Fold_step_contk1 hcont hcond]
      have hv : (0xC0 + c / 64 - 0xC0) * 64 + (0x80 + c % 64 - 0x80) = c := by
        omega
      rw [hv]
    · rw [if_neg h2] at h
      by_cases h3 : c < 0x10000
      · rw [if_pos h3] at h
        by_cases hsur : 0xD800 ≤ c ∧ c ≤ 0xDFFF
        · rw [if_pos hsur] at h
          cases h
        · rw [if_neg hsur] at h
          injection h with h
          subst h
          simp only [List.cons_append, List.nil_append]
          rw [utf8Fold_step_start3
            (show (0xE0 : Nat) ≤ 0xE0 + c / 4096 by omega)
            (show 0xE0 + c / 4096 < 0xF0 by omega)]
          have hcont1 : utf8Cont (0x80 + c / 64 % 64) := ⟨by omega, by omega⟩
          rw [utf8Fold_step_cont hcont1 (show ¬((2 : Nat) = 1) by omega)]
          have hcont2 : utf8Cont (0x80 + c % 64) := ⟨by omega, by omega⟩
          have hcond : (0x800 : Nat) ≤
              ((0xE0 + c / 4096 - 0xE0) * 64 + (0x80 + c / 64 % 64 - 0x80)) *
                64 + (0x80 + c % 64 - 0x80) ∧
              ((0xE0 + c / 4096 - 0xE0) * 64 + (0x80 + c / 64 % 64 - 0x80)) *
                64 + (0x80 + c % 64 - 0x80) < 0x110000 ∧
              ¬(0xD800 ≤ ((0xE0 + c / 4096 - 0xE0) * 64 +
                  (0x80 + c / 64 % 64 - 0x80)) * 64 + (0x80 + c % 64 - 0x80) ∧
                ((0xE0 + c / 4096 - 0xE0) * 64 + (0x80 + c / 64 % 64 - 0x80)) *
                  64 + (0x80 + c % 64 - 0x80) ≤ 0xDFFF) := by omega
          rw [utf8Fold_step_contk1 hcont2 hcond]
          have hv : ((0xE0 + c / 4096 - 0xE0) * 64 +
              (0x80 + c / 64 % 64 - 0x80)) * 64 + (0x80 + c % 64 - 0x80) = c :=
            by omega
          rw [hv]
      · rw [if_neg h3] at h
        by_cases h4 : c < 0x110000
        · rw [if_pos h4] at h
          injection h with h
          subst h
          simp only [List.cons_append, List.nil_append]
          rw [utf8Fold_step_start4
            (show (0xF0 : Nat) ≤ 0xF0 + c / 262144 by omega)
            (show 0xF0 + c / 262144 < 0xF5 by omega)]
          have hcont1 : utf8Cont (0x80 + c / 4096 % 64) := ⟨by omega, by omega⟩
          rw [utf8Fold_step_cont hcont1 (show ¬((3 : Nat) = 1) by omega)]
          have hcont2 : utf8Cont (0x80 + c / 64 % 64) := ⟨by omega, by omega⟩
          rw [utf8Fold_step_cont hcont2 (show ¬((3 - 1 : Nat) = 1) by omega)]
          have hcont3 : utf8Cont (0x80 + c % 64) := ⟨by omega, by omega⟩
          have hcond : (0x10000 : Nat) ≤
              (((0xF0 + c / 262144 - 0xF0) * 64 + (0x80 + c / 4096 % 64 -
                0x80)) * 64 + (0x80 + c / 64 % 64 - 0x80)) * 64 +
                (0x80 + c % 64 - 0x80) ∧
              (((0xF0 + c / 262144 - 0xF0) * 64 + (0x80 + c / 4096 % 64 -
                0x80)) * 64 + (0x80 + c / 64 % 64 - 0x80)) * 64 +
                (0x80 + c % 64 - 0x80) < 0x110000 ∧
              ¬(0xD800 ≤ (((0xF0 + c / 262144 - 0xF0) * 64 +
                  (0x80 + c / 4096 % 64 - 0x80)) * 64 +
                  (0x80 + c / 64 % 64 - 0x80)) * 64 + (0x80 + c % 64 - 0x80) ∧
                (((0xF0 + c / 262144 - 0xF0) * 64 + (0x80 + c / 4096 % 64 -
                  0x80)) * 64 + (0x80 + c / 64 % 64 - 0x80)) * 64 +
                  (0x80 + c % 64 - 0x80) ≤ 0xDFFF) := by omega
          rw [utf8Fold_step_contk1 hcont3 hcond]
          have hv : (((0xF0 + c / 262144 - 0xF0) * 64 +
              (0x80 + c / 4096 % 64 - 0x80)) * 64 +
              (0x80 + c / 64 % 64 - 0x80)) * 64 + (0x80 + c % 64 - 0x80) = c :=
            by omega
          rw [hv]
        · rw [if_neg h4] at h
          cases h

theorem utf8Fold_encode : ∀ (cs bs : List Nat), utf8Encode cs = some bs →
    ∀ acc, utf8Fold bs acc none = some (acc.reverse ++ cs)
  | [], bs, h, acc => by
    cases h
    show some acc.reverse = _
    rw [List.append_nil]
  | c :: cs', bs, h, acc => by
    replace h : (do pure ((← utf8EncodeChar c) ++ (← utf8Encode cs')))
        = some bs := h
    cases he : utf8EncodeChar c with
    | none => rw [he] at h; simp at h
    | some eb =>
      rw [he] at h
      cases hr : utf8Encode cs' with
      | none => rw [hr] at h; simp at h
      | some bs' =>
        rw [hr] at h
        simp only [Option.bind_eq_bind, Option.some_bind, Option.pure_def,
          Option.some.injEq] at h
        subst h
        rw [utf8Fold_encodeChar he, utf8Fold_encode cs' bs' hr (c :: acc)]
        simp

/-- The strict decoder inverts the encoder on every encodable string. -/
theorem utf8Decode_encode {cs bs : List Nat} (h : utf8Encode cs = some bs) :
    utf8Decode bs = some cs := by
  unfold utf8Decode
  rw [utf8Fold_encode cs bs h []]
  rfl

/-- Round trip of a valid string field: deserializing its own serialization
restores the format together with the pad-extended value, and returns the
rest of the buffer. -/
theorem stringField_roundtrip (s : StringField) (hval : s.Valid)
    (bs rest : List Nat) (hser : s.serialize = .ok bs) :
    s.deserialize (bs ++ rest) =
      ({ format := s.format, value := s.padValue }, .ok rest) := by
  unfold StringField.serialize at hser
  cases henc : s.encodePayload with
  | error e => rw [henc] at hser; cases hser
  | ok payload =>
    rw [henc] at hser
    replace hser : (if payload.length < 64 then
        Except.ok ((s.format.val * 64 + payload.length) :: payload)
      else (Except.error PyErr.packError : Except PyErr (List Nat)))
        = Except.ok bs := hser
    by_cases hlt : payload.length < 64
    · rw [if_pos hlt] at hser
      cases hser
      have hfv4 : s.format.val ≤ 3 := by cases s.format <;> decide
      have hsel : (s.format.val * 64 + payload.length) / 64 % 4 =
          s.format.val := by omega
      have hlen64 : (s.format.val * 64 + payload.length) % 64 =
          payload.length := by omega
      have hofsel : StringFmt.ofSelector s.format.val = s.format := by
        cases s.format <;> rfl
      have hdec : decodePayload s.format payload = .ok s.padValue := by
        unfold StringField.encodePayload at henc
        unfold decodePayload StringField.padValue
        cases hfmt : s.format with
        | BIN =>
          rw [hfmt] at henc
          cases hue : utf8Encode s.value with
          | none => rw [hue] at henc; cases henc
          | some eb =>
            rw [hue] at henc
            replace henc : (Except.ok eb : Except PyErr (List Nat)) =
              .ok payload := henc
            injection henc with henc
            subst henc
            show deserPlain eb = Except.ok s.value
            unfold deserPlain
            rw [utf8Decode_encode hue]
        | ASCII_8BIT =>
          rw [hfmt] at henc
          cases hue : utf8Encode s.value with
          | none => rw [hue] at henc; cases henc
          | some eb =>
            rw [hue] at henc
            replace henc : (Except.ok eb : Except PyErr (List Nat)) =
              .ok payload := henc
            injection henc with henc
            subst henc
            show deserPlain eb = Except.ok s.value
            unfold deserPlain
            rw [utf8Decode_encode hue]
        | BCD_PLUS =>
          rw [hfmt] at henc
          cases hsb : serBcdPlus s.value with
          | none => rw [hsb] at henc; cases henc
          | some pb =>
            rw [hsb] at henc
            replace henc : (Except.ok pb : Except PyErr (List Nat)) =
              .ok payload := henc
            injection henc with henc
            subst henc
            show deserBcdPlus pb = Except.ok (padSpaces 2 s.value)
            exact deserBcdPlus_serBcdPlus s.value pb hsb
        | ASCII_6BIT =>
          rw [hfmt] at henc
          have hrange : ∀ c ∈ s.value, 0x20 ≤ c ∧ c < 0x60 := by
            have h' := hval
            unfold StringField.Valid at h'
            rw [hfmt] at h'
            exact h'
          have hupper : s.value.map pyUpperChar = s.value :=
            map_pyUpperChar_id s.value fun c hc => by
              have := hrange c hc
              omega
          rw [hupper] at henc
          cases hs6 : ser6bit s.value with
          | none => rw [hs6] at henc; cases henc
          | some pb =>
            rw [hs6] at henc
            replace henc : (Except.ok pb : Except PyErr (List Nat)) =
              .ok payload := henc
            injection henc with henc
            subst henc
            show deserSixbit pb = Except.ok (padSpaces 4 s.value)
            unfold deserSixbit
            rw [deser6bit_ser6bit s.value pb hs6]
            show (match utf8Decode (padSpaces 4 s.value) with
              | some cs => Except.ok cs
              | none => Except.error PyErr.codecError) =
                Except.ok (padSpaces 4 s.value)
            rw [utf8Decode_ascii (padSpaces 4 s.value)
              (padSpaces_ascii fun c hc => by have := hrange c hc; omega)]
      rw [List.cons_append]
      simp only [StringField.deserialize, hsel, hlen64, hofsel,
        List.take_left, List.drop_left, hdec]
    · rw [if_neg hlt] at hser
      cases hser

/-- Round trip of a valid schema field: the decode of a field's own encoding
stores its pad-extended state and consumes exactly its bytes. -/
theorem field_roundtrip (f : Field) (hval : f.Valid) (bs rest : List Nat)
    (hser : f.serialize = .ok bs) :
    f.deserialize (bs ++ rest) = (f.pad, .ok rest) := by
  cases f with
  | fixed ff =>
    rw [Field.deserialize_fixed, fixedField_roundtrip ff hval bs rest hser]
    rfl
  | str s =>
    rw [Field.deserialize_str, stringField_roundtrip s hval bs rest hser]
    rfl

/-! ## C1: record-level round trip -/

theorem serializeFields_ok_mem : ∀ (fs : List (String × Field))
    (body : List Nat), serializeFields fs = .ok body →
    ∀ p ∈ fs, ∃ b, p.2.serialize = .ok b
  | [], _, _, p, hp => by simp at hp
  | (k, f) :: rest, body, h, p, hp => by
    unfold serializeFields at h
    rw [exceptBind_ok] at h
    obtain ⟨b1, hb1, h⟩ := h
    rw [exceptBind_ok] at h
    obtain ⟨b2, hb2, -⟩ := h
    rcases List.mem_cons.1 hp with rfl | hp'
    · exact ⟨b1, hb1⟩
    · exact serializeFields_ok_mem rest b2 hb2 p hp'

/-- Deserializing the concatenated encoding of a list of valid fields
restores each in its pad-extended state and hands back the rest. -/
theorem deserializeFields_roundtrip :
    ∀ (fs : List (String × Field)) (body rest : List Nat),
    (∀ p ∈ fs, p.2.Valid) → serializeFields fs = .ok body →
    deserializeFields fs (body ++ rest) =
      (fs.map fun p => (p.1, p.2.pad), .ok rest)
  | [], body, rest, _, h => by
    cases h
    rfl
  | (k, f) :: fs', body, rest, hv, h => by
    unfold serializeFields at h
    rw [exceptBind_ok] at h
    obtain ⟨b1, hb1, h⟩ := h
    rw [exceptBind_ok] at h
    obtain ⟨b2, hb2, h⟩ := h
    replace h : (Except.ok (b1 ++ b2) : Except PyErr (List Nat)) =
      .ok body := h
    injection h with h
    subst h
    have h1 := field_roundtrip f (hv (k, f) (by simp)) b1 (b2 ++ rest) hb1
    have h2 := deserializeFields_roundtrip fs' b2 rest
      (fun p hp => hv p (List.mem_cons_of_mem _ hp)) hb2
    simp only [deserializeFields, List.append_assoc, h1, h2, List.map_cons]

/-- `verifyEpilogue` accepts exactly its own recomputed epilogue and consumes
it completely. -/
theorem verifyEpilogue_exact (a' : FruArea) (payload : List Nat) :
    verifyEpilogue a' (payload ++ epilogue payload) (epilogue payload) =
      (a', .ok []) := by
  simp only [verifyEpilogue]
  have hne0 : ¬((epilogue payload).length = 0) := by simp [epilogue]
  rw [if_neg hne0]
  have h1 : (payload ++ epilogue payload).length - (epilogue payload).length
      = payload.length := by simp
  rw [h1, List.take_left, List.take_length, if_pos rfl, List.drop_length]

theorem findField_mem : ∀ (l : List (String × Field)) (k : String) (f : Field),
    findField l k = some f → (k, f) ∈ l
  | [], _, _, h => by cases h
  | (k', f') :: rest, k, f, h => by
    unfold findField at h
    split at h
    next heq =>
      injection h with h
      subst heq
      subst h
      exact List.mem_cons_self _ _
    next => exact List.mem_cons_of_mem _ (findField_mem rest k f h)

theorem mem_replaceField : ∀ (l : List (String × Field)) (k : String)
    (f' : Field) (p : String × Field), p ∈ replaceField l k f' →
    p ∈ l ∨ p = (k, f')
  | [], _, _, p, hp => by simp [replaceField] at hp
  | q :: rest, k, f', p, hp => by
    unfold replaceField at hp
    split at hp
    next =>
      rcases List.mem_cons.1 hp with rfl | hp'
      · exact .inr rfl
      · exact .inl (List.mem_cons_of_mem _ hp')
    next =>
      rcases List.mem_cons.1 hp with rfl | hp'
      · exact .inl (List.mem_cons_self _ _)
      · rcases mem_replaceField rest k f' p hp' with h | h
        · exact .inl (List.mem_cons_of_mem _ h)
        · exact .inr h

theorem replaceField_mem_self : ∀ (l : List (String × Field)) (k : String)
    (f' : Field), (findField l k).isSome → (k, f') ∈ replaceField l k f'
  | [], k, f', h => by simp [findField] at h
  | ⟨k', f⟩ :: rest, k, f', h => by
    unfold replaceField
    by_cases heq : k' = k
    · rw [if_pos heq]
      exact List.mem_cons_self _ _
    · rw [if_neg heq]
      unfold findField at h
      rw [if_neg heq] at h
      exact List.mem_cons_of_mem _ (replaceField_mem_self rest k f' h)

theorem findField_isSome_of_mem : ∀ (l : List (String × Field))
    (p : String × Field), p ∈ l → (findField l p.1).isSome
  | [], p, hp => by simp at hp
  | ⟨k', f⟩ :: rest, p, hp => by
    unfold findField
    by_cases heq : k' = p.1
    · rw [if_pos heq]
      rfl
    · rw [if_neg heq]
      rcases List.mem_cons.1 hp with rfl | hp'
      · exact absurd rfl heq
      · exact findField_isSome_of_mem rest p hp'

/-- Looking a key up among the pad-extended fields pads the lookup result. -/
theorem findField_pad : ∀ (l : List (String × Field)) (k : String),
    findField (l.map fun p => (p.1, p.2.pad)) k =
      (findField l k).map Field.pad
  | [], _ => rfl
  | ⟨k', f⟩ :: rest, k => by
    simp only [List.map_cons, findField]
    by_cases heq : k' = k
    · rw [if_pos heq, if_pos heq]
      rfl
    · rw [if_neg heq, if_neg heq]
      exact findField_pad rest k

theorem mapM_map_comp {α β γ : Type} (h : α → β) (g : β → Option γ) :
    ∀ l : List α, (l.map h).mapM g = l.mapM fun x => g (h x)
  | [] => rfl
  | x :: l => by
    rw [List.map_cons, List.mapM_cons, List.mapM_cons, mapM_map_comp h g l]

theorem mapM_option_pair_rel {α β : Type} (R : β → β → Prop)
    (f g : α → Option β) :
    ∀ l : List α,
    (∀ x ∈ l, ∃ v v', f x = some v ∧ g x = some v' ∧ R v v') →
    ∃ ds ds', l.mapM f = some ds ∧ l.mapM g = some ds' ∧
      List.Forall₂ R ds ds'
  | [], _ => ⟨[], [], rfl, rfl, .nil⟩
  | x :: l, h => by
    obtain ⟨v, v', hv, hv', hr⟩ := h x (by simp)
    obtain ⟨ds, ds', hds, hds', hrel⟩ := mapM_option_pair_rel R f g l
      fun y hy => h y (List.mem_cons_of_mem _ hy)
    refine ⟨v :: ds, v' :: ds', ?_, ?_, .cons hr hrel⟩
    · rw [List.mapM_cons, hv, hds]
      rfl
    · rw [List.mapM_cons, hv', hds']
      rfl

/-- Each schema entry's accessor value before and after pad extension, and
their pad relation.  The record needs a tuple-shaped format version and a
fixed first `area_length` entry (what a successful `serialize` guarantees). -/
theorem getItem_pad_rel (a : FruArea)
    (hfv2 : ∃ r v : Int, a.formatVersion.value = .tup [r, v])
    (harea : ∀ f, findField a.fields "area_length" = some f →
      ∃ ff : FixedField, f = .fixed ff)
    (p : String × Field) (hp : p ∈ a.fields) :
    ∃ v v', a.getItem p.1 = some v ∧ a.padFields.getItem p.1 = some v' ∧
      padValRel v v' := by
  by_cases hal : p.1 = "area_length"
  · have hsome := findField_isSome_of_mem a.fields p hp
    rw [hal] at hsome
    cases hff : findField a.fields "area_length" with
    | none => rw [hff] at hsome; cases hsome
    | some f0 =>
      obtain ⟨ff, rfl⟩ := harea f0 hff
      refine ⟨pyMul8 (Field.pyValue (.fixed ff)),
        pyMul8 (Field.pyValue (.fixed ff)), ?_, ?_, .inl rfl⟩
      · unfold FruArea.getItem
        rw [hal, if_pos rfl]
        unfold FruArea.genGet
        rw [hff]
        rfl
      · unfold FruArea.getItem
        rw [hal, if_pos rfl]
        unfold FruArea.genGet
        show (((findField (a.fields.map fun q => (q.1, q.2.pad))
          "area_length").map Field.pyValue).map pyMul8) = _
        rw [findField_pad, hff]
        rfl
  · by_cases hfvk : p.1 = "format_version"
    · obtain ⟨r, v, hfv⟩ := hfv2
      refine ⟨.int v, .int v, ?_, ?_, .inl rfl⟩
      · unfold FruArea.getItem
        rw [if_neg hal, if_pos hfvk, hfv]
        rfl
      · unfold FruArea.getItem
        rw [if_neg hal, if_pos hfvk]
        show (match a.formatVersion.value with
          | .tup ns => (ns.get? 1).map PyVal.int
          | .scalar _ => none) = some (.int v)
        rw [hfv]
        rfl
    · have hsome := findField_isSome_of_mem a.fields p hp
      cases hff : findField a.fields p.1 with
      | none => rw [hff] at hsome; cases hsome
      | some f0 =>
        refine ⟨f0.pyValue, f0.pad.pyValue, ?_, ?_, ?_⟩
        · unfold FruArea.getItem
          rw [if_neg hal, if_neg hfvk]
          unfold FruArea.genGet
          rw [hff]
          rfl
        · unfold FruArea.getItem
          rw [if_neg hal, if_neg hfvk]
          unfold FruArea.genGet
          show ((findField (a.fields.map fun q => (q.1, q.2.pad))
            p.1).map Field.pyValue) = _
          rw [findField_pad, hff]
          rfl
        · cases f0 with
          | fixed ff => exact .inl rfl
          | str s =>
            cases hsf : s.format with
            | BIN =>
              refine .inl ?_
              show PyVal.str s.padValue = .str s.value
              unfold StringField.padValue
              rw [hsf]
            | ASCII_8BIT =>
              refine .inl ?_
              show PyVal.str s.padValue = .str s.value
              unfold StringField.padValue
              rw [hsf]
            | BCD_PLUS =>
              refine .inr ⟨s.value, numPad s.value.length 2, rfl, ?_⟩
              show PyVal.str s.padValue =
                .str (s.value ++ List.replicate (numPad s.value.length 2) 0x20)
              unfold StringField.padValue
              rw [hsf]
              rfl
            | ASCII_6BIT =>
              refine .inr ⟨s.value, numPad s.value.length 4, rfl, ?_⟩
              show PyVal.str s.padValue =
                .str (s.value ++ List.replicate (numPad s.value.length 4) 0x20)
              unfold StringField.padValue
              rw [hsf]
              rfl

/-- `to_dict` before and after pad extension: both snapshots exist and are
pointwise pad-related, key for key. -/
theorem to_dict_padFields (a : FruArea)
    (hfv2 : ∃ r v : Int, a.formatVersion.value = .tup [r, v])
    (harea : ∀ f, findField a.fields "area_length" = some f →
      ∃ ff : FixedField, f = .fixed ff) :
    ∃ ds ds', a.to_dict = some ds ∧ a.padFields.to_dict = some ds' ∧
      List.Forall₂ (fun p q => p.1 = q.1 ∧ padValRel p.2 q.2) ds ds' := by
  have hmm : a.padFields.to_dict =
      a.fields.mapM fun p =>
        (a.padFields.getItem p.1).map fun v => (p.1, v) := by
    show (a.fields.map fun p => (p.1, p.2.pad)).mapM
        (fun q => (a.padFields.getItem q.1).map fun v => (q.1, v)) = _
    rw [mapM_map_comp]
  obtain ⟨ds, ds', h1, h2, h3⟩ := mapM_option_pair_rel
    (fun p q : String × PyVal => p.1 = q.1 ∧ padValRel p.2 q.2)
    (fun p => (a.getItem p.1).map fun v => (p.1, v))
    (fun p => (a.padFields.getItem p.1).map fun v => (p.1, v))
    a.fields
    (fun p hp => by
      obtain ⟨v, v', hv, hv', hr⟩ := getItem_pad_rel a hfv2 harea p hp
      refine ⟨(p.1, v), (p.1, v'), ?_, ?_, rfl, hr⟩
      · show Option.map (fun w => (p.1, w)) (a.getItem p.1) = some (p.1, v)
        rw [hv]
        rfl
      · show Option.map (fun w => (p.1, w)) (a.padFields.getItem p.1) =
          some (p.1, v')
        rw [hv']
        rfl)
  exact ⟨ds, ds', h1, by rw [hmm]; exact h2, h3⟩

/-- C1 counterexample: `areaLenRec` is a valid record (schema
`[("area_length", u8)]` with the stale stored value 0), and its pre-serialize
snapshot reads `area_length = 0`; yet serializing — which overwrites the stale
stored value with `size_total() / 8` — and deserializing the produced bytes
leaves a record whose snapshot reads `area_length = 8`.  `int 0` and `int 8`
are not pad-related, so the round trip does not return the record to a state
whose `to_dict` equals the snapshot taken before serializing. -/
theorem c1_counterexample :
    FruArea.Valid areaLenRec ∧
    areaLenRec.to_dict = some [("area_length", .int 0)] ∧
    (∃ a1 bs, areaLenRec.serialize = .ok (a1, bs) ∧
      (a1.deserialize bs).2 = .ok [] ∧
      (a1.deserialize bs).1.to_dict = some [("area_length", .int 8)]) ∧
    ¬ padValRel (.int 0) (.int 8) := by
  refine ⟨⟨rfl, ⟨0, 1, rfl⟩, ?_⟩, by decide,
    ⟨{ formatVersion := { widths := [4, 4], value := .tup [0, 1] },
       fields := [("area_length",
         .fixed { widths := [8], value := .scalar 1 })] },
     [1, 1, 0, 0, 0, 0, 0, 254], by decide, by decide, by decide⟩, ?_⟩
  · intro p hp
    simp only [areaLenRec, FruArea.ofSchema, List.mem_singleton] at hp
    subst hp
    exact ⟨by decide, by decide, fun _ => rfl, fun _ => ⟨0, rfl⟩⟩
  · intro h
    unfold padValRel at h
    rcases h with h | ⟨cs, k, h1, -⟩
    · simp at h
    · cases h1

/-- C1 (amended): serializing any valid record and then deserializing the
produced bytes succeeds, consumes the whole buffer, and leaves the record in
its pad-extended state — every string value gains the trailing pad spaces its
encoding introduces, everything else is untouched.  Hence the final `to_dict`
equals the snapshot taken right after `serialize` (which may differ from the
pre-serialize snapshot only in the auto-computed `area_length`) modulo
trailing pad spaces on string values, key for key. -/
theorem c1_roundtrip_amended (a a1 : FruArea) (bs : List Nat)
    (hv : a.Valid) (hser : a.serialize = .ok (a1, bs)) :
    a1.deserialize bs = (a1.padFields, .ok []) ∧
    ∃ ds ds', a1.to_dict = some ds ∧ a1.padFields.to_dict = some ds' ∧
      List.Forall₂ (fun p q => p.1 = q.1 ∧ padValRel p.2 q.2) ds ds' := by
  obtain ⟨hw44, hfvv, hfieldsv⟩ := hv
  obtain ⟨pro, body, hpro, hbody, hbs, hfv, hbr⟩ := serialize_ok_inv hser
  have hfvvalid : a.formatVersion.Valid := by
    refine ⟨by rw [hw44]; simp, by rw [hw44]; rfl, ?_⟩
    constructor
    · rintro ⟨n, hn⟩
      obtain ⟨r, v, hrv⟩ := hfvv
      rw [hrv] at hn
      cases hn
    · intro hlen
      rw [hw44] at hlen
      simp at hlen
  have harea1 : ∀ f, findField a1.fields "area_length" = some f →
      ∃ ff : FixedField, f = .fixed ff := by
    rcases hbr with ⟨rfl, hfalse⟩ | ⟨t, ht, hset⟩
    · intro f hf
      rw [hf] at hfalse
      cases hfalse
    · obtain ⟨hmod, ff, hfind, ha1⟩ := setItem_area_ok_inv hset
      intro f hf
      simp only [ha1] at hf
      rw [findField_replaceField_self a.fields "area_length" _
        (by rw [hfind]; rfl)] at hf
      injection hf with hf
      exact ⟨_, hf.symm⟩
  have hfields1 : ∀ p ∈ a1.fields, p.2.Valid := by
    rcases hbr with ⟨rfl, -⟩ | ⟨t, ht, hset⟩
    · exact hfieldsv
    · obtain ⟨hmod, ff, hfind, ha1⟩ := setItem_area_ok_inv hset
      intro p hp
      simp only [ha1] at hp
      rcases mem_replaceField a.fields "area_length" _ p hp with hp' | rfl
      · exact hfieldsv p hp'
      · have hmem : ("area_length", Field.fixed ff) ∈ a.fields :=
          findField_mem a.fields "area_length" _ hfind
        obtain ⟨hne, hm8, -⟩ := hfieldsv _ hmem
        have hmem1 : ("area_length", Field.fixed
            { ff with value := .scalar ((t : Int).fdiv 8) }) ∈ a1.fields := by
          simp only [ha1]
          exact replaceField_mem_self a.fields "area_length" _
            (by rw [hfind]; rfl)
        obtain ⟨b, hb⟩ := serializeFields_ok_mem a1.fields body hbody _ hmem1
        have hlen1 := FixedField.serialize_ok_args hb
        refine ⟨hne, hm8, ?_, ?_⟩
        · intro _
          simpa [FixedField.valueList] using hlen1
        · intro _
          exact ⟨_, rfl⟩
  have hpadeq : a1.padFields =
      { formatVersion := a.formatVersion,
        fields := a1.fields.map fun p => (p.1, p.2.pad) } := by
    unfold FruArea.padFields
    rw [hfv]
  constructor
  · subst hbs
    rw [List.append_assoc]
    have hprorev : a.formatVersion.deserialize
        (pro ++ (body ++ epilogue (pro ++ body))) =
        (a.formatVersion, .ok (body ++ epilogue (pro ++ body))) :=
      fixedField_roundtrip a.formatVersion hfvvalid pro _ hpro
    have hfieldsrt := deserializeFields_roundtrip a1.fields body
      (epilogue (pro ++ body)) hfields1 hbody
    simp only [FruArea.deserialize, hfv, hprorev, hfieldsrt]
    rw [hpadeq, ← List.append_assoc, verifyEpilogue_exact]
  · refine to_dict_padFields a1 ?_ harea1
    obtain ⟨r, v, hrv⟩ := hfvv
    exact ⟨r, v, by rw [hfv, hrv]⟩

/-- C1 witness: the amended round trip evaluated on `eacuteRec` — one
ASCII_8BIT field `x = "é"`, non-ASCII, serialized (UTF-8) to
`01 C2 C3 A9 00 00 00 D1`. -/
theorem c1_witness :
    FruArea.deserialize eacuteRec [1, 0xC2, 0xC3, 0xA9, 0, 0, 0, 0xD1] =
      (eacuteRec.padFields, .ok []) ∧
    ∃ ds ds', eacuteRec.to_dict = some ds ∧
      eacuteRec.padFields.to_dict = some ds' ∧
      List.Forall₂ (fun p q => p.1 = q.1 ∧ padValRel p.2 q.2) ds ds' :=
  c1_roundtrip_amended eacuteRec eacuteRec [1, 0xC2, 0xC3, 0xA9, 0, 0, 0, 0xD1]
    ⟨rfl, ⟨0, 1, rfl⟩, by
      intro p hp
      simp only [eacuteRec, FruArea.ofSchema, List.mem_singleton] at hp
      subst hp
      show ∀ c ∈ ([0xE9] : List Nat),
        c < 0x110000 ∧ ¬(0xD800 ≤ c ∧ c ≤ 0xDFFF)
      decide⟩
    (by decide)

end Frugy
